import Mathlib

/-!
Verification development for the Braille autocorrect system.

The definitions below are a shallow embedding of the Python sources
(src/braille.py, with a second scorer variant from src/test2.py):

* Python tuples/lists of dot indices become `List ℕ`; set operations on
  dot patterns go through `List.toFinset`.
* Python dicts (all used with insertion-order iteration) become
  association lists `List (key × value)`; `defaultdict` reads that insert
  a default entry are modelled explicitly by `dictGetOrCreate` / `touch`.
* Python floats become `ℚ` (all constants involved, 0.5 and 0.1, and the
  Jaccard/Hamming ratios are exact rationals).
* A raised `ValueError` becomes the `Except`-error `BrailleError.invalidKey`
  carrying the structured data interpolated into the Python message.
* `str.split()` / `str.split('+')` / `str.lower()` and string comparison
  are modelled on the character list (`String.data`), matching CPython
  semantics on the ASCII data the system works with.
-/

/-- Dot-to-key table, from braille.py line 10 (dict iterates in insertion
order, dots ascending). -/
def DOT_TO_KEY : List (ℕ × String) :=
  [(1, "D"), (2, "W"), (3, "Q"), (4, "K"), (5, "O"), (6, "P")]

/-- English letter-to-dot-pattern table, braille.py lines 12-20. -/
def ENGLISH_BRAILLE : List (Char × List ℕ) :=
  [('a', [1]), ('b', [1, 2]), ('c', [1, 4]), ('d', [1, 4, 5]), ('e', [1, 5]),
   ('f', [1, 2, 4]), ('g', [1, 2, 4, 5]), ('h', [1, 2, 5]), ('i', [2, 4]),
   ('j', [2, 4, 5]), ('k', [1, 3]), ('l', [1, 2, 3]), ('m', [1, 3, 4]),
   ('n', [1, 3, 4, 5]), ('o', [1, 3, 5]), ('p', [1, 2, 3, 4]), ('q', [1, 2, 3, 4, 5]),
   ('r', [1, 2, 3, 5]), ('s', [2, 3, 4]), ('t', [2, 3, 4, 5]), ('u', [1, 3, 6]),
   ('v', [1, 2, 3, 6]), ('w', [2, 4, 5, 6]), ('x', [1, 3, 4, 6]), ('y', [1, 3, 4, 5, 6]),
   ('z', [1, 3, 5, 6])]

/-- FRENCH_BRAILLE = ENGLISH_BRAILLE.copy(), braille.py line 22. -/
def FRENCH_BRAILLE : List (Char × List ℕ) := ENGLISH_BRAILLE

/-- Whole-word contractions, braille.py lines 24-26. -/
def CONTRACTIONS : List (String × List ℕ) := [("the", [2, 3, 4, 6])]

/-- Association-list lookup (first matching key), modelling Python dict
access on dicts whose keys are unique. -/
def alookup {κ α : Type} [DecidableEq κ] : List (κ × α) → κ → Option α
  | [], _ => none
  | (k, v) :: rest, s => if k = s then some v else alookup rest s

/-- Association-list read with default, modelling dict.get(k, d). -/
def agetD {κ α : Type} [DecidableEq κ] (l : List (κ × α)) (k : κ) (d : α) : α :=
  (alookup l k).getD d

/-- ASCII lowering of one character, modelling str.lower() on the ASCII
strings this system uses. -/
def charLower (c : Char) : Char :=
  if 'A' ≤ c ∧ c ≤ 'Z' then Char.ofNat (c.toNat + 32) else c

/-- ASCII model of Python str.lower(). -/
def pyLower (s : String) : String := ⟨s.data.map charLower⟩

/-- Python str.split() (no separator): split on whitespace runs and drop
empty pieces, modelled on the character list. -/
def pySplitWs (s : String) : List String :=
  ((s.data.splitOnP Char.isWhitespace).filter (· ≠ [])).map (fun cs => ⟨cs⟩)

/-- Python token.split(on one-character separator), modelled on the
character list; keeps empty pieces, as CPython does. -/
def pySplitPlus (t : String) : List String :=
  (t.data.splitOn '+').map (fun cs => ⟨cs⟩)

/-- The error surface of the core: braille.py raises exactly one error, the
ValueError of keys_to_dots (line 71), whose message interpolates the set of
offending symbols and the set of valid keys; we carry that data
structurally. -/
inductive BrailleError : Type where
  | invalidKey (offending : Finset String) (valid : Finset String)
deriving DecidableEq

/-- The set of valid key symbols, braille.py line 69
(valid_keys = set(DOT_TO_KEY.values())). -/
def validKeys : Finset String := (DOT_TO_KEY.map (·.2)).toFinset

/-- keys_to_dots, braille.py lines 65-72.  The final Python
sorted(dot for dot, key in DOT_TO_KEY.items() if key in key_set) is the
insertion sort of the filtered dot list (DOT_TO_KEY already iterates its
dots in ascending order, so the sort is a no-op, but we keep it). -/
def keys_to_dots (keys : String) : Except BrailleError (List ℕ) :=
  if keys = "" then .ok []
  else
    let key_set : Finset String := (pySplitPlus keys).toFinset
    if key_set ⊆ validKeys then
      .ok (List.insertionSort (· ≤ ·)
        ((DOT_TO_KEY.filter (fun p => p.2 ∈ key_set)).map (·.1)))
    else
      .error (.invalidKey (key_set \ validKeys) validKeys)

/-- Left-to-right parsing of a token list, propagating the first error:
the list comprehension of input_to_braille evaluates keys_to_dots on each
whitespace-separated group in order and the first raised error aborts. -/
def parseTokens : List String → Except BrailleError (List (List ℕ))
  | [] => .ok []
  | t :: ts =>
    match keys_to_dots t with
    | .error e => .error e
    | .ok d =>
      match parseTokens ts with
      | .error e => .error e
      | .ok ds => .ok (d :: ds)

/-- input_to_braille, braille.py lines 74-75. -/
def input_to_braille (input_seq : String) : Except BrailleError (List (List ℕ)) :=
  parseTokens (pySplitWs input_seq)

/-- hamming_distance, braille.py lines 77-79 (symmetric difference of the
two dot sets). -/
def hamming_distance (dots1 dots2 : List ℕ) : ℕ :=
  ((dots1.toFinset \ dots2.toFinset) ∪ (dots2.toFinset \ dots1.toFinset)).card

/-- normalized_dot_distance, braille.py lines 81-88: Jaccard distance of
the two dot sets, with the empty/empty case defined as 1.0. -/
def normalized_dot_distance (dots1 dots2 : List ℕ) : ℚ :=
  let set1 := dots1.toFinset
  let set2 := dots2.toFinset
  let intersection := (set1 ∩ set2).card
  let union := (set1 ∪ set2).card
  if union = 0 then 1 else 1 - (intersection : ℚ) / (union : ℚ)

/-- Inner loop of levenshtein_distance (braille.py lines 100-105): given
the previous DP row (as the sublist from column j on) and the value just
appended to the current row, produce the rest of the current row.
previous_row always has one more entry than the remaining word suffix, so
the two truncated fallback cases are never reached on calls made by the
outer loop. -/
def levInner (c1 : List ℕ) : List (List ℕ) → List ℚ → ℚ → List ℚ
  | [], _, _ => []
  | _ :: _, [], _ => []
  | _ :: _, [_], _ => []
  | c2 :: ws, pj :: pj1 :: prest, last =>
    let insertions := pj1 + 1
    let deletions := last + 1
    let substitutions := pj + normalized_dot_distance c1 c2
    let cur := min insertions (min deletions substitutions)
    cur :: levInner c1 ws (pj1 :: prest) cur

/-- Outer loop of levenshtein_distance (braille.py lines 98-106): iterate
over the input patterns, threading previous_row and the 0-based index i. -/
def levOuter (word_dots : List (List ℕ)) : List (List ℕ) → List ℚ → ℕ → List ℚ
  | [], previous_row, _ => previous_row
  | c1 :: rest, previous_row, i =>
    let current_row := ((i : ℚ) + 1) :: levInner c1 word_dots previous_row ((i : ℚ) + 1)
    levOuter word_dots rest current_row (i + 1)

/-- levenshtein_distance, braille.py lines 90-107: length-skew penalty from
the original lengths, swap so the first list is the longer one, early
return when the shorter list is empty, otherwise the row dynamic program;
the penalty is added once to the final cell. -/
def levenshtein_distance (input_dots word_dots : List (List ℕ)) : ℚ :=
  let len_diff_penalty : ℚ :=
    |(input_dots.length : ℚ) - (word_dots.length : ℚ)| * 0.5
  let a := if input_dots.length < word_dots.length then word_dots else input_dots
  let b := if input_dots.length < word_dots.length then input_dots else word_dots
  if b = [] then (a.length : ℚ) + len_diff_penalty
  else
    let row0 : List ℚ := (List.range (b.length + 1)).map (fun j : ℕ => (j : ℚ))
    (levOuter b a row0 0).getLastD 0 + len_diff_penalty

/-- Modelled from the spec (section 4.3): the standard edit-distance
dynamic-programming table between the length-i prefix of A and the
length-j prefix of B, with unit insertion and deletion cost and
substitution cost normalized_dot_distance; specEditDP A B A.length
B.length is the final cell. -/
def specEditDP (A B : List (List ℕ)) : ℕ → ℕ → ℚ
  | 0, j => (j : ℚ)
  | i + 1, 0 => ((i : ℚ) + 1)
  | i + 1, j + 1 =>
    min (specEditDP A B i (j + 1) + 1)
      (min (specEditDP A B (i + 1) j + 1)
        (specEditDP A B i j + normalized_dot_distance (A.getD i []) (B.getD j [])))
  termination_by i j => (i, j)

/-- TrieNode, braille.py lines 28-32: children keyed by dot tuples (in
insertion order), a terminal flag and the stored word. -/
inductive TrieNode : Type where
  | mk (children : List (List ℕ × TrieNode)) (is_end : Bool) (word : Option String)

/-- Children accessor. -/
def TrieNode.children : TrieNode → List (List ℕ × TrieNode)
  | .mk c _ _ => c

/-- Terminal flag accessor. -/
def TrieNode.is_end : TrieNode → Bool
  | .mk _ e _ => e

/-- Stored-word accessor. -/
def TrieNode.word : TrieNode → Option String
  | .mk _ _ w => w

/-- A fresh TrieNode(). -/
def emptyTrie : TrieNode := .mk [] false none

/-- Association-list update of the first entry with the given key (the key
is present whenever the code calls this; the nil fallback appends). -/
def aset {κ α : Type} [DecidableEq κ] : List (κ × α) → κ → α → List (κ × α)
  | [], k, v => [(k, v)]
  | (k0, v0) :: rest, k, v =>
    if k0 = k then (k0, v) :: rest else (k0, v0) :: aset rest k v

/-- Defaultdict read of dictionaries[language] (braille.py line 36): return
the trie for the language, inserting a fresh empty root (at the end, in
dict insertion order) when the language has none. -/
def dictGetOrCreate (d : List (String × TrieNode)) (language : String) :
    TrieNode × List (String × TrieNode) :=
  match alookup d language with
  | some t => (t, d)
  | none => (emptyTrie, d ++ [(language, emptyTrie)])

/-- Defaultdict(int) read that inserts a zero entry for an absent key, as
corrections[key] does inside suggest_word (braille.py line 117). -/
def touch : List (String × ℕ) → String → List (String × ℕ)
  | [], s => [(s, 0)]
  | (k, v) :: rest, s =>
    if k = s then (k, v) :: rest else (k, v) :: touch rest s

/-- Correction counter read: the recorded count, 0 for an absent key. -/
def countOf (c : List (String × ℕ)) (s : String) : ℕ := agetD c s 0

/-- corrections[key] += 1 on a defaultdict(int): increment in place, or
append the key with count 1 (braille.py line 127). -/
def bump : List (String × ℕ) → String → List (String × ℕ)
  | [], s => [(s, 1)]
  | (k, v) :: rest, s =>
    if k = s then (k, v + 1) :: rest else (k, v) :: bump rest s

/-- The walk of add_word (braille.py lines 45-52): follow the dot-pattern
path from the node, creating missing children (appended in insertion
order), and mark the final node terminal with the original-case word. -/
def insertPath : TrieNode → List (List ℕ) → String → TrieNode
  | .mk cs _ _, [], w => .mk cs true (some w)
  | .mk cs e wd, dots :: rest, w =>
    match alookup cs dots with
    | some child => .mk (aset cs dots (insertPath child rest w)) e wd
    | none => .mk (cs ++ [(dots, insertPath (.mk [] false none) rest w)]) e wd

/-- The per-language braille letter tables, braille.py lines 38-41. -/
def bmapFor (language : String) : Option (List (Char × List ℕ)) :=
  alookup [("english", ENGLISH_BRAILLE), ("french", FRENCH_BRAILLE)] language

/-- The mutable state of a BrailleAutocorrect instance: the per-language
trie registry and the correction counters, both defaultdicts created empty
in __init__ (braille.py lines 34-42; braille_maps and contractions are the
fixed tables above). -/
structure BrailleAutocorrect : Type where
  dictionaries : List (String × TrieNode)
  corrections : List (String × ℕ)

/-- The freshly constructed BrailleAutocorrect(). -/
def initState : BrailleAutocorrect := ⟨[], []⟩

/-- add_word, braille.py lines 44-52.  The defaultdict read of
dictionaries[language] happens first; then each character of word.lower()
is mapped through the language's letter table with default [] and the trie
is extended along that path.  A language outside braille_maps raises
KeyError at the first character (modelled as none; the empty word raises
nothing because the loop body never runs). -/
def add_word (st : BrailleAutocorrect) (word : String) (language : String) :
    Option BrailleAutocorrect :=
  let pr := dictGetOrCreate st.dictionaries language
  match bmapFor language with
  | some bmap =>
    some ⟨aset pr.2 language
        (insertPath pr.1 ((pyLower word).data.map (fun ch => agetD bmap ch [])) word),
      st.corrections⟩
  | none =>
    if (pyLower word).data = [] then
      some ⟨aset pr.2 language (insertPath pr.1 [] word), st.corrections⟩
    else none

/-- Marking a node terminal with a word, keeping its children (braille.py
lines 62-63). -/
def markEnd : TrieNode → String → TrieNode
  | .mk cs _ _, w => .mk cs true (some w)

/-- The contraction insertion of load_dictionary (braille.py lines 58-63):
a direct root child keyed by the contraction pattern, created if absent,
then marked terminal with the contraction word. -/
def addContraction (root : TrieNode) (word : String) (dots : List ℕ) : TrieNode :=
  match root with
  | .mk cs e wd =>
    match alookup cs dots with
    | some child => .mk (aset cs dots (markEnd child word)) e wd
    | none => .mk (cs ++ [(dots, markEnd (.mk [] false none) word)]) e wd

/-- The word loop of load_dictionary (braille.py lines 55-56). -/
def loadWords : BrailleAutocorrect → List String → String → Option BrailleAutocorrect
  | st, [], _ => some st
  | st, w :: ws, language =>
    match add_word st w language with
    | none => none
    | some st' => loadWords st' ws language

/-- The contraction loop of load_dictionary (braille.py lines 57-63); each
iteration re-reads dictionaries[language] (a defaultdict read). -/
def contrLoop : BrailleAutocorrect → List (String × List ℕ) → String → BrailleAutocorrect
  | st, [], _ => st
  | st, (w, dots) :: rest, language =>
    let pr := dictGetOrCreate st.dictionaries language
    contrLoop ⟨aset pr.2 language (addContraction pr.1 w dots), st.corrections⟩ rest language

/-- load_dictionary, braille.py lines 54-63: add every word, then add the
contractions for English only. -/
def load_dictionary (st : BrailleAutocorrect) (words : List String)
    (language : String) : Option BrailleAutocorrect :=
  match loadWords st words language with
  | none => none
  | some st' =>
    some (if language = "english" then contrLoop st' CONTRACTIONS language else st')

mutual

/-- The dfs of suggest_word (braille.py lines 114-122), collecting the
(path, word) pairs of the terminals in traversal order: a terminal is
recorded when is_end is set and the word is truthy (non-None, non-empty),
then the children are visited in insertion order, each extending the
accumulated path (current_dots + [list(dots)]); terminalsChildren is the
loop over node.children.items(). -/
def TrieNode.terminalsFrom (t : TrieNode) (current_dots : List (List ℕ)) :
    List (List (List ℕ) × String) :=
  match t with
  | .mk children e wd =>
    (match e, wd with
     | true, some w => if w = "" then [] else [(current_dots, w)]
     | _, _ => []) ++
    terminalsChildren children current_dots
  termination_by sizeOf t
  decreasing_by all_goals (simp; try omega)

/-- The child loop of the dfs, in insertion order. -/
def terminalsChildren (cs : List (List ℕ × TrieNode)) (current_dots : List (List ℕ)) :
    List (List (List ℕ) × String) :=
  match cs with
  | [] => []
  | (k, c) :: rest =>
    c.terminalsFrom (current_dots ++ [k]) ++ terminalsChildren rest current_dots
  termination_by sizeOf cs
  decreasing_by all_goals (simp; try omega)

end

/-- The learning bonus of suggest_word (braille.py line 117):
min(0.5, 0.1 * count). -/
def learnBonus (count : ℕ) : ℚ := min 0.5 (0.1 * (count : ℚ))

/-- Lexicographic boolean comparison of character lists, the order CPython
uses on strings (code-point lexicographic). -/
def charListLeb : List Char → List Char → Bool
  | [], _ => true
  | _ :: _, [] => false
  | a :: as, b :: bs => if a < b then true else if a = b then charListLeb as bs else false

/-- Python string less-or-equal. -/
def pyStrLe (s t : String) : Prop := charListLeb s.data t.data = true

/-- The ascending order on the recorded (score, distance, word) triples:
Python tuple comparison, score first, then raw distance, then the word
lexicographically. -/
def TripleLE (x y : ℚ × ℚ × String) : Prop :=
  x.1 < y.1 ∨ (x.1 = y.1 ∧ (x.2.1 < y.2.1 ∨ (x.2.1 = y.2.1 ∧ pyStrLe x.2.2 y.2.2)))

instance : DecidableRel TripleLE := fun x y => by
  unfold TripleLE pyStrLe
  infer_instance

/-- suggest_word, braille.py lines 109-124: parse the input (errors
propagate), return [] for an empty pattern sequence before touching any
state, otherwise read dictionaries[language] (a defaultdict read that may
register an empty trie), score every terminal of the dfs — the
corrections defaultdict read inserts a zero entry for each visited word's
lowercase form — sort the (score, distance, word) triples ascending
(heap push then list sort: the sorted permutation), and return the first
max_suggestions words. -/
def suggest_word (st : BrailleAutocorrect) (input_seq : String) (language : String)
    (max_suggestions : ℕ) : Except BrailleError (List String × BrailleAutocorrect) :=
  match input_to_braille input_seq with
  | .error e => .error e
  | .ok input_dots =>
    if input_dots = [] then .ok ([], st)
    else
      let pr := dictGetOrCreate st.dictionaries language
      let entries := pr.1.terminalsFrom []
      let suggestions := entries.map (fun ew =>
        let dist := levenshtein_distance input_dots ew.1
        let learn_bonus := learnBonus (countOf st.corrections (pyLower ew.2))
        (dist - learn_bonus, dist, ew.2))
      let corrections' := entries.foldl (fun c ew => touch c (pyLower ew.2)) st.corrections
      .ok (((List.insertionSort TripleLE suggestions).take max_suggestions).map
          (fun s => s.2.2),
        ⟨pr.2, corrections'⟩)

/-- The returned word list of suggest_word (discarding the state). -/
def suggest_words (st : BrailleAutocorrect) (input_seq : String) (language : String)
    (max_suggestions : ℕ) : Except BrailleError (List String) :=
  (suggest_word st input_seq language max_suggestions).map (fun p => p.1)

/-- learn_correction, braille.py lines 126-127 (input_seq is unused in the
source as well). -/
def learn_correction (st : BrailleAutocorrect) (input_seq : String)
    (corrected_word : String) : BrailleAutocorrect :=
  ⟨st.dictionaries, bump st.corrections (pyLower corrected_word)⟩

/-- process_input, braille.py lines 129-130 (max_suggestions defaults
to 1). -/
def process_input (st : BrailleAutocorrect) (input_seq : String)
    (language : String) : Except BrailleError (List String × BrailleAutocorrect) :=
  suggest_word st input_seq language 1

namespace Test2

/-- Inner loop of test2.py levenshtein_distance (lines 112-122): identical
row recurrence, but the substitution cost is the raw symmetric-difference
size divided by 6 (0 when the patterns agree). -/
def levInner (c1 : List ℕ) : List (List ℕ) → List ℚ → ℚ → List ℚ
  | [], _, _ => []
  | _ :: _, [], _ => []
  | _ :: _, [_], _ => []
  | c2 :: ws, pj :: pj1 :: prest, last =>
    let insertions := pj1 + 1
    let deletions := last + 1
    let hamming := hamming_distance c1 c2
    let substitutions := pj + (if hamming > 0 then (hamming : ℚ) / 6 else 0)
    let cur := min insertions (min deletions substitutions)
    cur :: levInner c1 ws (pj1 :: prest) cur

/-- Outer loop of test2.py levenshtein_distance. -/
def levOuter (word_dots : List (List ℕ)) : List (List ℕ) → List ℚ → ℕ → List ℚ
  | [], previous_row, _ => previous_row
  | c1 :: rest, previous_row, i =>
    let current_row := ((i : ℚ) + 1) :: levInner c1 word_dots previous_row ((i : ℚ) + 1)
    levOuter word_dots rest current_row (i + 1)

/-- levenshtein_distance, test2.py lines 105-123: same shape as the
braille.py scorer (the length penalty is added to the returned distance
here too), with the symmetric-difference-over-6 substitution cost. -/
def levenshtein_distance (input_dots word_dots : List (List ℕ)) : ℚ :=
  let length_diff : ℚ := |(input_dots.length : ℚ) - (word_dots.length : ℚ)| * 0.5
  let a := if input_dots.length < word_dots.length then word_dots else input_dots
  let b := if input_dots.length < word_dots.length then input_dots else word_dots
  if b = [] then (a.length : ℚ) + length_diff
  else
    let row0 : List ℚ := (List.range (b.length + 1)).map (fun j : ℕ => (j : ℚ))
    (levOuter b a row0 0).getLastD 0 + length_diff

/-- suggest_word, test2.py lines 125-145: the score adds the length
adjustment again on top of the distance (which already contains it) and
subtracts the learning adjustment, whose corrections key is the
original-case word here (no .lower()). -/
def suggest_word (st : BrailleAutocorrect) (input_seq : String) (language : String)
    (max_suggestions : ℕ) : Except BrailleError (List String × BrailleAutocorrect) :=
  match input_to_braille input_seq with
  | .error e => .error e
  | .ok input_dots =>
    if input_dots = [] then .ok ([], st)
    else
      let pr := dictGetOrCreate st.dictionaries language
      let entries := pr.1.terminalsFrom []
      let suggestions := entries.map (fun ew =>
        let distance := Test2.levenshtein_distance input_dots ew.1
        let length_adjustment : ℚ :=
          |(ew.1.length : ℚ) - (input_dots.length : ℚ)| * 0.5
        let learning_adjustment := learnBonus (countOf st.corrections ew.2)
        (distance + length_adjustment - learning_adjustment, distance, ew.2))
      let corrections' := entries.foldl (fun c ew => touch c ew.2) st.corrections
      .ok (((List.insertionSort TripleLE suggestions).take max_suggestions).map
          (fun s => s.2.2),
        ⟨pr.2, corrections'⟩)

/-- The returned word list of the test2.py suggest_word. -/
def suggest_words (st : BrailleAutocorrect) (input_seq : String) (language : String)
    (max_suggestions : ℕ) : Except BrailleError (List String) :=
  (Test2.suggest_word st input_seq language max_suggestions).map (fun p => p.1)

end Test2

/-! ### Properties of the substitution cost -/

/-- The substitution cost is symmetric. -/
theorem normalized_dot_distance_comm (p q : List ℕ) :
    normalized_dot_distance p q = normalized_dot_distance q p := by
  simp only [normalized_dot_distance, Finset.inter_comm, Finset.union_comm]

/-- The substitution cost is nonnegative. -/
theorem normalized_dot_distance_nonneg (p q : List ℕ) :
    0 ≤ normalized_dot_distance p q := by
  simp only [normalized_dot_distance]
  split
  · norm_num
  · rename_i h
    have hle : ((p.toFinset ∩ q.toFinset).card : ℚ) ≤ ((p.toFinset ∪ q.toFinset).card : ℚ) := by
      exact_mod_cast Finset.card_le_card Finset.inter_subset_union
    have hpos : (0 : ℚ) < ((p.toFinset ∪ q.toFinset).card : ℚ) := by
      exact_mod_cast Nat.pos_of_ne_zero h
    have := div_le_one_of_le₀ hle (le_of_lt hpos)
    linarith

/-- The substitution cost of a nonempty pattern with itself is 0. -/
theorem normalized_dot_distance_self {p : List ℕ} (hp : p ≠ []) :
    normalized_dot_distance p p = 0 := by
  simp only [normalized_dot_distance, Finset.inter_self, Finset.union_self]
  have h : p.toFinset.card ≠ 0 := by
    simp only [ne_eq, Finset.card_eq_zero, List.toFinset_eq_empty_iff]
    exact hp
  rw [if_neg h, div_self (by exact_mod_cast h)]
  ring

/-- The substitution cost of two empty patterns is 1. -/
theorem normalized_dot_distance_nil_nil : normalized_dot_distance [] [] = 1 := by
  simp [normalized_dot_distance]

/-- The substitution cost is 0 exactly for a pair of patterns with equal,
nonempty dot sets. -/
theorem normalized_dot_distance_eq_zero_iff (p q : List ℕ) :
    normalized_dot_distance p q = 0 ↔ p.toFinset = q.toFinset ∧ p ≠ [] := by
  simp only [normalized_dot_distance]
  constructor
  · intro h
    split at h
    · norm_num at h
    · rename_i hu
      have hpos : (0 : ℚ) < ((p.toFinset ∪ q.toFinset).card : ℚ) := by
        exact_mod_cast Nat.pos_of_ne_zero hu
      have hcards : ((p.toFinset ∩ q.toFinset).card : ℚ) = ((p.toFinset ∪ q.toFinset).card : ℚ) := by
        field_simp at h
        linarith
      have hcard : (p.toFinset ∪ q.toFinset).card ≤ (p.toFinset ∩ q.toFinset).card := by
        exact_mod_cast le_of_eq hcards.symm
      have hset : p.toFinset ∩ q.toFinset = p.toFinset ∪ q.toFinset :=
        Finset.eq_of_subset_of_card_le Finset.inter_subset_union hcard
      have hpq : p.toFinset = q.toFinset := by
        apply Finset.Subset.antisymm
        · intro a ha
          have : a ∈ p.toFinset ∪ q.toFinset := Finset.mem_union_left _ ha
          rw [← hset] at this
          exact (Finset.mem_inter.mp this).2
        · intro a ha
          have : a ∈ p.toFinset ∪ q.toFinset := Finset.mem_union_right _ ha
          rw [← hset] at this
          exact (Finset.mem_inter.mp this).1
      refine ⟨hpq, ?_⟩
      intro hnil
      subst hnil
      simp only [List.toFinset_nil] at hpq
      rw [← hpq] at hu
      simp at hu
  · rintro ⟨hpq, hp⟩
    rw [hpq, Finset.inter_self, Finset.union_self]
    have h : q.toFinset.card ≠ 0 := by
      simp only [ne_eq, Finset.card_eq_zero, List.toFinset_eq_empty_iff]
      intro hq
      rw [hq] at hpq
      simp only [List.toFinset_nil] at hpq
      exact hp (List.toFinset_eq_empty_iff p |>.mp hpq)
    rw [if_neg h, div_self (by exact_mod_cast h)]
    ring

/-! ### The row dynamic program computes the standard DP table -/

/-- Every cell of the standard DP table is nonnegative. -/
theorem specEditDP_nonneg (A B : List (List ℕ)) : ∀ i j, 0 ≤ specEditDP A B i j := by
  intro i
  induction i with
  | zero => intro j; simp [specEditDP]
  | succ i ih =>
    intro j
    induction j with
    | zero =>
      simp only [specEditDP]
      positivity
    | succ j ih2 =>
      simp only [specEditDP]
      rw [le_min_iff, le_min_iff]
      refine ⟨by linarith [ih (j + 1)], by linarith [ih2], ?_⟩
      have := normalized_dot_distance_nonneg (A.getD i []) (B.getD j [])
      have := ih j
      linarith

/-- The standard DP table is symmetric in its two sequences (the
substitution cost is symmetric and insertion and deletion both cost 1). -/
theorem specEditDP_symm (A B : List (List ℕ)) :
    ∀ i j, specEditDP A B i j = specEditDP B A j i := by
  intro i
  induction i with
  | zero =>
    intro j
    cases j with
    | zero => simp [specEditDP]
    | succ j => simp [specEditDP]
  | succ i ih =>
    intro j
    induction j with
    | zero => simp [specEditDP]
    | succ j ih2 =>
      show specEditDP A B (i + 1) (j + 1) = specEditDP B A (j + 1) (i + 1)
      simp only [specEditDP]
      rw [ih (j + 1), ih2, ih j, normalized_dot_distance_comm]
      rw [min_left_comm]

/-- 0-column values of the standard DP table. -/
theorem specEditDP_zero_right (A B : List (List ℕ)) (i : ℕ) :
    specEditDP A B i 0 = (i : ℚ) := by
  cases i with
  | zero => simp [specEditDP]
  | succ i => simp [specEditDP]

/-- One row segment of the standard DP table: the cells (i, j₀), (i, j₀+1),
... of row i, len cells in all. -/
def dpRow (A B : List (List ℕ)) (i j₀ len : ℕ) : List ℚ :=
  (List.range len).map (fun t => specEditDP A B i (j₀ + t))

/-- Peeling the first cell off a row segment. -/
theorem dpRow_succ (A B : List (List ℕ)) (i j₀ len : ℕ) :
    dpRow A B i j₀ (len + 1) = specEditDP A B i j₀ :: dpRow A B i (j₀ + 1) len := by
  unfold dpRow
  rw [List.range_succ_eq_map, List.map_cons, List.map_map]
  refine congrArg₂ _ (by simp) ?_
  apply List.map_congr_left
  intro t _
  simp only [Function.comp_apply]
  congr 1
  omega

/-- The inner loop of the scorer maps row i of the standard DP table (from
column j₀ on) to row i+1 (from column j₀+1 on). -/
theorem levInner_spec (A B : List (List ℕ)) (i : ℕ) :
    ∀ k j₀, B.length - j₀ = k →
    levInner (A.getD i []) (B.drop j₀) (dpRow A B i j₀ (B.length + 1 - j₀))
        (specEditDP A B (i + 1) j₀)
      = dpRow A B (i + 1) (j₀ + 1) (B.length - j₀) := by
  intro k
  induction k with
  | zero =>
    intro j₀ hk
    rw [List.drop_eq_nil_of_le (by omega), hk]
    simp [levInner, dpRow]
  | succ k ih =>
    intro j₀ hk
    have hlt : j₀ < B.length := by omega
    rw [List.drop_eq_getElem_cons hlt]
    rw [show B.length + 1 - j₀ = (k + 1) + 1 from by omega, dpRow_succ,
      show k + 1 = k + 1 from rfl, dpRow_succ]
    rw [levInner]
    have hcur :
        min (specEditDP A B i (j₀ + 1) + 1)
            (min (specEditDP A B (i + 1) j₀ + 1)
              (specEditDP A B i j₀ + normalized_dot_distance (A.getD i []) B[j₀]))
          = specEditDP A B (i + 1) (j₀ + 1) := by
      rw [show specEditDP A B (i + 1) (j₀ + 1)
            = min (specEditDP A B i (j₀ + 1) + 1)
                (min (specEditDP A B (i + 1) j₀ + 1)
                  (specEditDP A B i j₀
                    + normalized_dot_distance (A.getD i []) (B.getD j₀ []))) from by
          simp [specEditDP]]
      rw [List.getD_eq_getElem B [] hlt]
    rw [hcur]
    have hrow : (specEditDP A B i (j₀ + 1) :: dpRow A B i (j₀ + 1 + 1) k)
        = dpRow A B i (j₀ + 1) (B.length + 1 - (j₀ + 1)) := by
      rw [show B.length + 1 - (j₀ + 1) = k + 1 from by omega, dpRow_succ]
    rw [hrow, ih (j₀ + 1) (by omega)]
    rw [show B.length - j₀ = (B.length - (j₀ + 1)) + 1 from by omega, dpRow_succ]

/-- The outer loop of the scorer turns row i of the standard DP table into
the final row. -/
theorem levOuter_spec (A B : List (List ℕ)) :
    ∀ k i, i ≤ A.length → A.length - i = k →
    levOuter B (A.drop i) (dpRow A B i 0 (B.length + 1)) i
      = dpRow A B A.length 0 (B.length + 1) := by
  intro k
  induction k with
  | zero =>
    intro i hle hk
    rw [List.drop_eq_nil_of_le (by omega)]
    rw [levOuter, show i = A.length from by omega]
  | succ k ih =>
    intro i hle hk
    have hlt : i < A.length := by omega
    rw [List.drop_eq_getElem_cons hlt, levOuter]
    have hseed : ((i : ℚ) + 1) = specEditDP A B (i + 1) 0 := by
      simp [specEditDP]
    have hprev : dpRow A B i 0 (B.length + 1) = dpRow A B i 0 (B.length + 1 - 0) := by
      norm_num
    have hinner : levInner A[i] B (dpRow A B i 0 (B.length + 1)) ((i : ℚ) + 1)
        = dpRow A B (i + 1) 1 B.length := by
      rw [hseed, hprev, ← List.getD_eq_getElem A [] hlt,
        show B = B.drop 0 from (List.drop_zero B).symm]
      have := levInner_spec A B i B.length 0 (by omega)
      simpa using this
    rw [hinner]
    have hrow : (specEditDP A B (i + 1) 0 :: dpRow A B (i + 1) 1 B.length)
        = dpRow A B (i + 1) 0 (B.length + 1) := (dpRow_succ A B (i + 1) 0 B.length).symm
    rw [hseed, hrow]
    exact ih (i + 1) (by omega) (by omega)

/-- The row program of braille.py computes the final cell of the standard
DP table. -/
theorem levRows_eq (A B : List (List ℕ)) :
    (levOuter B A ((List.range (B.length + 1)).map (fun j : ℕ => (j : ℚ))) 0).getLastD 0
      = specEditDP A B A.length B.length := by
  have hrow0 : (List.range (B.length + 1)).map (fun j : ℕ => (j : ℚ))
      = dpRow A B 0 0 (B.length + 1) := by
    apply List.map_congr_left
    intro t _
    simp [specEditDP]
  rw [hrow0]
  have := levOuter_spec A B A.length 0 (by omega) (by omega)
  rw [List.drop_zero] at this
  rw [this]
  unfold dpRow
  rw [List.range_succ, List.map_append]
  simp

/-- The levenshtein_distance of braille.py equals the final cell of the
standard edit-distance DP table plus the length-skew penalty, added exactly
once. -/
theorem levenshtein_distance_eq_specEditDP (A B : List (List ℕ)) :
    levenshtein_distance A B
      = specEditDP A B A.length B.length
        + |(A.length : ℚ) - (B.length : ℚ)| * 0.5 := by
  simp only [levenshtein_distance]
  by_cases h : A.length < B.length
  · simp only [if_pos h]
    by_cases hA : A = []
    · subst hA
      simp [specEditDP]
    · rw [if_neg hA, levRows_eq B A, specEditDP_symm B A]
  · simp only [if_neg h]
    by_cases hB : B = []
    · subst hB
      simp [specEditDP_zero_right]
    · rw [if_neg hB, levRows_eq A B]

/-! ### Corollaries about the scorer needed for the ranking claims -/

/-- The scorer never returns a negative distance. -/
theorem levenshtein_distance_nonneg (A B : List (List ℕ)) :
    0 ≤ levenshtein_distance A B := by
  rw [levenshtein_distance_eq_specEditDP]
  have h1 := specEditDP_nonneg A B A.length B.length
  have h2 : (0 : ℚ) ≤ |(A.length : ℚ) - (B.length : ℚ)| * 0.5 := by positivity
  linarith

/-- A canonical dot pattern: strictly sorted dot indices (hence without
duplicates).  Every pattern stored in a trie or produced by the parser is
canonical. -/
def PatternValid (l : List ℕ) : Prop := l.Sorted (· < ·)

/-- Strictly sorted lists with the same element set are equal. -/
theorem sorted_toFinset_inj {x y : List ℕ} (hx : PatternValid x) (hy : PatternValid y)
    (h : x.toFinset = y.toFinset) : x = y := by
  have hxn : x.Nodup := hx.nodup
  have hyn : y.Nodup := hy.nodup
  have hperm : x.Perm y := by
    rw [List.perm_ext_iff_of_nodup hxn hyn]
    intro a
    rw [← List.mem_toFinset, ← List.mem_toFinset, h]
  exact List.eq_of_perm_of_sorted hperm (hx.imp le_of_lt) (hy.imp le_of_lt)

/-- The diagonal of the standard DP table of a sequence against itself is 0
when all its patterns are nonempty. -/
theorem specEditDP_diag_self (A : List (List ℕ)) (hA : ∀ p ∈ A, p ≠ []) :
    ∀ i, i ≤ A.length → specEditDP A A i i = 0 := by
  intro i
  induction i with
  | zero => simp [specEditDP]
  | succ i ih =>
    intro hle
    have hp : A.getD i [] ∈ A := by
      rw [List.getD_eq_getElem A [] (by omega)]
      exact List.getElem_mem _
    have hndd : normalized_dot_distance (A.getD i []) (A.getD i []) = 0 :=
      normalized_dot_distance_self (hA _ hp)
    have h3 : specEditDP A A i i + normalized_dot_distance (A.getD i []) (A.getD i []) = 0 := by
      rw [ih (by omega), hndd]; ring
    have hn1 := specEditDP_nonneg A A i (i + 1)
    have hn2 := specEditDP_nonneg A A (i + 1) i
    apply le_antisymm
    · calc specEditDP A A (i + 1) (i + 1)
          ≤ specEditDP A A i i + normalized_dot_distance (A.getD i []) (A.getD i []) := by
            simp only [specEditDP]
            exact le_trans (min_le_right _ _) (min_le_right _ _)
        _ = 0 := h3
    · exact specEditDP_nonneg A A (i + 1) (i + 1)

/-- The scorer gives distance 0 on an exact pattern match (all input
patterns being nonempty). -/
theorem levenshtein_distance_self (A : List (List ℕ)) (hA : ∀ p ∈ A, p ≠ []) :
    levenshtein_distance A A = 0 := by
  rw [levenshtein_distance_eq_specEditDP, specEditDP_diag_self A hA A.length (le_refl _)]
  simp

/-- A zero diagonal cell of the standard DP table forces substitution cost
0 at every earlier aligned pair. -/
theorem specEditDP_diag_zero (A B : List (List ℕ)) :
    ∀ i, specEditDP A B i i = 0 →
    ∀ k, k < i → normalized_dot_distance (A.getD k []) (B.getD k []) = 0 := by
  intro i
  induction i with
  | zero => intro _ k hk; omega
  | succ i ih =>
    intro h0 k hk
    have hb1 : 0 ≤ specEditDP A B i (i + 1) := specEditDP_nonneg A B i (i + 1)
    have hb2 : 0 ≤ specEditDP A B (i + 1) i := specEditDP_nonneg A B (i + 1) i
    have hb3 : 0 ≤ specEditDP A B i i := specEditDP_nonneg A B i i
    have hbs : 0 ≤ normalized_dot_distance (A.getD i []) (B.getD i []) :=
      normalized_dot_distance_nonneg _ _
    simp only [specEditDP] at h0
    rw [min_eq_iff] at h0
    rcases h0 with ⟨h0, _⟩ | ⟨h0, _⟩
    · linarith
    · rw [min_eq_iff] at h0
      rcases h0 with ⟨h0, _⟩ | ⟨h0, _⟩
      · linarith
      · have hdpz : specEditDP A B i i = 0 := by linarith
        have hsz : normalized_dot_distance (A.getD i []) (B.getD i []) = 0 := by linarith
        rcases Nat.lt_succ_iff_lt_or_eq.mp hk with hk' | hk'
        · exact ih hdpz k hk'
        · subst hk'; exact hsz

/-- If the scorer returns 0 then the two sequences are the same canonical
sequence (given canonical patterns, the input ones nonempty). -/
theorem levenshtein_distance_eq_zero (A B : List (List ℕ))
    (hAv : ∀ p ∈ A, PatternValid p) (hAn : ∀ p ∈ A, p ≠ [])
    (hBv : ∀ p ∈ B, PatternValid p)
    (h : levenshtein_distance A B = 0) : A = B := by
  rw [levenshtein_distance_eq_specEditDP] at h
  have hdp := specEditDP_nonneg A B A.length B.length
  have hpen : (0 : ℚ) ≤ |(A.length : ℚ) - (B.length : ℚ)| * 0.5 := by positivity
  have hpen0 : |(A.length : ℚ) - (B.length : ℚ)| * 0.5 = 0 := by linarith
  have hlen : A.length = B.length := by
    have : |(A.length : ℚ) - (B.length : ℚ)| = 0 := by linarith
    have h2 : (A.length : ℚ) = (B.length : ℚ) := by
      have := abs_eq_zero.mp this
      linarith
    exact_mod_cast h2
  have hdp0 : specEditDP A B A.length A.length = 0 := by
    rw [hlen] at h ⊢
    simp only [sub_self, abs_zero, zero_mul, add_zero] at h
    exact h
  apply List.ext_getElem hlen
  intro k hk1 hk2
  have hndd := specEditDP_diag_zero A B A.length hdp0 k hk1
  rw [normalized_dot_distance_eq_zero_iff] at hndd
  have hA : A.getD k [] = A[k] := List.getD_eq_getElem A [] hk1
  have hB : B.getD k [] = B[k] := List.getD_eq_getElem B [] hk2
  rw [hA, hB] at hndd
  exact sorted_toFinset_inj (hAv _ (List.getElem_mem _)) (hBv _ (List.getElem_mem _)) hndd.1

/-! ### Parsing lemmas -/

/-- A list that is sorted without strictness and has no duplicates is
strictly sorted. -/
theorem sortedLT_of_sortedLE_nodup {l : List ℕ}
    (hs : l.Sorted (· ≤ ·)) (hn : l.Nodup) : l.Sorted (· < ·) :=
  (hs.and hn).imp (fun h => lt_of_le_of_ne h.1 h.2)

/-- A successfully parsed token yields a canonical (strictly sorted)
pattern. -/
theorem keys_to_dots_ok_sorted {t : String} {d : List ℕ}
    (h : keys_to_dots t = .ok d) : PatternValid d := by
  simp only [keys_to_dots] at h
  split_ifs at h with h1 h2
  · cases h
    exact List.sorted_nil
  · cases h
    have hs : (List.insertionSort (· ≤ ·)
        ((DOT_TO_KEY.filter (fun p => p.2 ∈ (pySplitPlus t).toFinset)).map (·.1))).Sorted
          (· ≤ ·) :=
      List.sorted_insertionSort _ _
    have hbase : ((DOT_TO_KEY.filter (fun p => p.2 ∈ (pySplitPlus t).toFinset)).map
        (·.1)).Nodup := by
      have hsub : ((DOT_TO_KEY.filter (fun p => p.2 ∈ (pySplitPlus t).toFinset)).map
          (·.1)).Sublist (DOT_TO_KEY.map (·.1)) :=
        List.Sublist.map _ (List.filter_sublist _)
      exact List.Nodup.sublist hsub (by decide)
    have hn := ((List.perm_insertionSort (· ≤ ·) _).nodup_iff).mpr hbase
    exact sortedLT_of_sortedLE_nodup hs hn

/-- A successfully parsed nonempty token yields a nonempty pattern. -/
theorem keys_to_dots_ok_ne_nil {t : String} {d : List ℕ}
    (ht : t ≠ "") (h : keys_to_dots t = .ok d) : d ≠ [] := by
  simp only [keys_to_dots, if_neg ht] at h
  split_ifs at h with h2
  · cases h
    have hne : pySplitPlus t ≠ [] := by
      unfold pySplitPlus
      simp only [ne_eq, List.map_eq_nil_iff]
      unfold List.splitOn
      exact List.splitOnP_ne_nil _ _
    obtain ⟨s, hs⟩ : ∃ s, s ∈ (pySplitPlus t).toFinset := by
      cases hmem : pySplitPlus t with
      | nil => exact absurd hmem hne
      | cons a rest => exact ⟨a, by simp⟩
    have hsv : s ∈ validKeys := h2 hs
    unfold validKeys at hsv
    rw [List.mem_toFinset, List.mem_map] at hsv
    obtain ⟨pr, hpr, hpr2⟩ := hsv
    have hprf : pr ∈ DOT_TO_KEY.filter (fun p => p.2 ∈ (pySplitPlus t).toFinset) := by
      rw [List.mem_filter]
      refine ⟨hpr, ?_⟩
      simp only [decide_eq_true_eq]
      rw [hpr2]
      exact hs
    have hmapne : ((DOT_TO_KEY.filter (fun p => p.2 ∈ (pySplitPlus t).toFinset)).map
        (·.1)) ≠ [] :=
      List.ne_nil_of_mem (List.mem_map_of_mem _ hprf)
    intro hnil
    have hlen := (List.perm_insertionSort (· ≤ ·)
      ((DOT_TO_KEY.filter (fun p => p.2 ∈ (pySplitPlus t).toFinset)).map (·.1))).length_eq
    rw [hnil] at hlen
    simp only [List.length_nil] at hlen
    exact hmapne (List.eq_nil_of_length_eq_zero hlen.symm)

/-- Tokens produced by the whitespace split are nonempty strings. -/
theorem pySplitWs_ne_empty {s : String} {t : String} (h : t ∈ pySplitWs s) : t ≠ "" := by
  unfold pySplitWs at h
  rw [List.mem_map] at h
  obtain ⟨cs, hcs, rfl⟩ := h
  rw [List.mem_filter] at hcs
  intro hnil
  have : cs = [] := congrArg String.data hnil
  subst this
  simp at hcs

/-- Every pattern of a successful parse comes from some token of the
list. -/
theorem parseTokens_ok_mem {ts : List String} {ds : List (List ℕ)}
    (h : parseTokens ts = .ok ds) : ∀ d ∈ ds, ∃ t ∈ ts, keys_to_dots t = .ok d := by
  induction ts generalizing ds with
  | nil =>
    unfold parseTokens at h
    cases h
    intro d hd
    simp at hd
  | cons t ts ih =>
    unfold parseTokens at h
    cases h1 : keys_to_dots t with
    | error e => rw [h1] at h; cases h
    | ok d0 =>
      rw [h1] at h
      cases h2 : parseTokens ts with
      | error e => rw [h2] at h; cases h
      | ok ds0 =>
        rw [h2] at h
        cases h
        intro d hd
        rcases List.mem_cons.mp hd with hd | hd
        · exact ⟨t, List.mem_cons_self _ _, by rw [hd]; exact h1⟩
        · obtain ⟨t', ht', hk⟩ := ih h2 d hd
          exact ⟨t', List.mem_cons_of_mem _ ht', hk⟩

/-- A successful parse of an input string yields canonical, nonempty
patterns. -/
theorem input_to_braille_valid {s : String} {A : List (List ℕ)}
    (h : input_to_braille s = .ok A) :
    (∀ p ∈ A, PatternValid p) ∧ (∀ p ∈ A, p ≠ []) := by
  unfold input_to_braille at h
  constructor
  · intro p hp
    obtain ⟨t, _, hk⟩ := parseTokens_ok_mem h p hp
    exact keys_to_dots_ok_sorted hk
  · intro p hp
    obtain ⟨t, ht, hk⟩ := parseTokens_ok_mem h p hp
    exact keys_to_dots_ok_ne_nil (pySplitWs_ne_empty ht) hk

/-! ### Association list lemmas -/

/-- A successful lookup returns a stored entry. -/
theorem alookup_mem {κ α : Type} [DecidableEq κ] {l : List (κ × α)} {k : κ} {v : α}
    (h : alookup l k = some v) : (k, v) ∈ l := by
  induction l with
  | nil => simp [alookup] at h
  | cons p rest ih =>
    obtain ⟨k0, v0⟩ := p
    unfold alookup at h
    split_ifs at h with hk
    · cases h
      subst hk
      exact List.mem_cons_self _ _
    · exact List.mem_cons_of_mem _ (ih h)

/-- A failed lookup means the key is absent. -/
theorem alookup_eq_none {κ α : Type} [DecidableEq κ] {l : List (κ × α)} {k : κ}
    (h : alookup l k = none) : k ∉ l.map (·.1) := by
  induction l with
  | nil => simp
  | cons p rest ih =>
    obtain ⟨k0, v0⟩ := p
    unfold alookup at h
    split_ifs at h with hk
    intro hmem
    simp only [List.map_cons, List.mem_cons] at hmem
    rcases hmem with hmem | hmem
    · exact hk hmem.symm
    · exact ih h hmem

/-- Lookup finds a stored entry when the keys have no duplicates. -/
theorem alookup_of_mem_nodup {κ α : Type} [DecidableEq κ] {l : List (κ × α)} {k : κ}
    {v : α} (hmem : (k, v) ∈ l) (hnd : (l.map (·.1)).Nodup) : alookup l k = some v := by
  induction l with
  | nil => simp at hmem
  | cons p rest ih =>
    obtain ⟨k0, v0⟩ := p
    simp only [List.map_cons, List.nodup_cons] at hnd
    rcases List.mem_cons.mp hmem with hmem | hmem
    · cases hmem
      simp [alookup]
    · unfold alookup
      split_ifs with hk
    -- k0 = k yet (k, v) occurs later: contradicts nodup
      · exfalso
        subst hk
        exact hnd.1 (List.mem_map_of_mem (·.1) hmem)
      · exact ih hmem hnd.2

/-- An updated entry list contains only the new pair and old pairs. -/
theorem mem_aset {κ α : Type} [DecidableEq κ] {l : List (κ × α)} {k : κ} {v : α}
    {p : κ × α} (h : p ∈ aset l k v) : p = (k, v) ∨ p ∈ l := by
  induction l with
  | nil =>
    unfold aset at h
    simp at h
    left
    simp [h]
  | cons q rest ih =>
    obtain ⟨k0, v0⟩ := q
    unfold aset at h
    split_ifs at h with hk
    · rcases List.mem_cons.mp h with h | h
      · left; subst hk; simpa using h
      · right; exact List.mem_cons_of_mem _ h
    · rcases List.mem_cons.mp h with h | h
      · right; exact h ▸ List.mem_cons_self _ _
      · rcases ih h with h | h
        · left; exact h
        · right; exact List.mem_cons_of_mem _ h

/-- Updating a present key keeps the key list unchanged. -/
theorem aset_map_fst {κ α : Type} [DecidableEq κ] {l : List (κ × α)} {k : κ} {v0 : α}
    (h : alookup l k = some v0) (v : α) : (aset l k v).map (·.1) = l.map (·.1) := by
  induction l with
  | nil => simp [alookup] at h
  | cons q rest ih =>
    obtain ⟨k0, w0⟩ := q
    unfold alookup at h
    unfold aset
    split_ifs at h ⊢ with hk
    · simp
    · simp only [List.map_cons, List.cons.injEq, true_and]
      exact ih h

/-! ### Reachable terminals of a well-formed trie -/

/-- Walking the trie along a pattern path and reading the word stored at
the end, exactly when the dfs would record that node (terminal with a
truthy word). -/
def findWordAux : TrieNode → List (List ℕ) → Option String
  | .mk _ e wd, [] =>
    (match e, wd with
     | true, some w => if w = "" then none else some w
     | _, _ => none)
  | .mk cs _ _, p :: rest =>
    (match alookup cs p with
     | some c => findWordAux c rest
     | none => none)

/-- Well-formed trie: at every node the children keys are canonical
patterns without duplicates.  Tries built by add_word / load_dictionary
are well formed. -/
inductive TrieWF : TrieNode → Prop where
  | mk {cs : List (List ℕ × TrieNode)} {e : Bool} {wd : Option String}
      (hkeys : ∀ p ∈ cs, PatternValid p.1)
      (hnodup : (cs.map (·.1)).Nodup)
      (hchildren : ∀ p ∈ cs, TrieWF p.2) :
      TrieWF (.mk cs e wd)

/-- Unfolding lemma for the dfs at a node. -/
theorem terminalsFrom_mk (cs : List (List ℕ × TrieNode)) (e : Bool) (wd : Option String)
    (cur : List (List ℕ)) :
    TrieNode.terminalsFrom (.mk cs e wd) cur =
      (match e, wd with
       | true, some w => if w = "" then [] else [(cur, w)]
       | _, _ => []) ++ terminalsChildren cs cur := by
  rw [TrieNode.terminalsFrom.eq_def]

/-- Membership in the child loop of the dfs. -/
theorem mem_terminalsChildren {cs : List (List ℕ × TrieNode)} {cur : List (List ℕ)}
    {pw : List (List ℕ) × String} :
    pw ∈ terminalsChildren cs cur ↔
      ∃ q ∈ cs, pw ∈ TrieNode.terminalsFrom q.2 (cur ++ [q.1]) := by
  induction cs with
  | nil => simp [terminalsChildren]
  | cons q rest ih =>
    obtain ⟨k, c⟩ := q
    rw [terminalsChildren]
    simp only [List.mem_append, ih, List.mem_cons]
    constructor
    · rintro (h | ⟨q', hq', h⟩)
      · exact ⟨(k, c), Or.inl rfl, h⟩
      · exact ⟨q', Or.inr hq', h⟩
    · rintro ⟨q', hq' | hq', h⟩
      · left; subst hq'; exact h
      · right; exact ⟨q', hq', h⟩

/-- Every entry the dfs records is a reachable terminal: its path extends
the accumulated path by canonical patterns, and walking that extension
finds exactly the recorded word. -/
theorem terminalsFrom_spec {t : TrieNode} (hwf : TrieWF t) :
    ∀ (cur : List (List ℕ)) (pw : List (List ℕ) × String),
      pw ∈ t.terminalsFrom cur →
      ∃ rest, pw.1 = cur ++ rest ∧ (∀ q ∈ rest, PatternValid q) ∧
        findWordAux t rest = some pw.2 := by
  induction hwf with
  | mk hkeys hnodup hchildren ih =>
    rename_i cs e wd
    intro cur pw hpw
    rw [terminalsFrom_mk] at hpw
    rcases List.mem_append.mp hpw with hbase | hrec
    · split at hbase
      · rename_i w
        split_ifs at hbase with hw
        · simp at hbase
        · simp only [List.mem_singleton] at hbase
          subst hbase
          refine ⟨[], by simp, by simp, ?_⟩
          rw [findWordAux]
          simp [hw]
      · simp at hbase
    · obtain ⟨q, hq, hmem⟩ := mem_terminalsChildren.mp hrec
      obtain ⟨rest', hpath, hvalid, hfind⟩ := ih q hq (cur ++ [q.1]) pw hmem
      refine ⟨q.1 :: rest', ?_, ?_, ?_⟩
      · rw [hpath]
        simp
      · intro r hr
        rcases List.mem_cons.mp hr with hr | hr
        · subst hr; exact hkeys q hq
        · exact hvalid r hr
      · show findWordAux (.mk cs e wd) (q.1 :: rest') = some pw.2
        rw [findWordAux]
        have : alookup cs q.1 = some q.2 := alookup_of_mem_nodup (by
          obtain ⟨k, c⟩ := q
          exact hq) hnodup
        rw [this]
        exact hfind

/-- Conversely, a reachable terminal is recorded by the dfs. -/
theorem findWordAux_mem_terminalsFrom :
    ∀ (A : List (List ℕ)) (t : TrieNode) (cur : List (List ℕ)) (w : String),
      findWordAux t A = some w → (cur ++ A, w) ∈ t.terminalsFrom cur := by
  intro A
  induction A with
  | nil =>
    intro t cur w h
    obtain ⟨cs, e, wd⟩ := t
    rw [terminalsFrom_mk]
    apply List.mem_append.mpr
    left
    cases e with
    | false => simp [findWordAux] at h
    | true =>
      cases wd with
      | none => simp [findWordAux] at h
      | some w' =>
        simp only [findWordAux] at h
        split_ifs at h with hw
        simp only [Option.some.injEq] at h
        subst h
        simp [hw]
  | cons p rest ih =>
    intro t cur w h
    obtain ⟨cs, e, wd⟩ := t
    rw [findWordAux] at h
    cases hl : alookup cs p with
    | none => rw [hl] at h; simp at h
    | some c =>
      rw [hl] at h
      rw [terminalsFrom_mk]
      apply List.mem_append.mpr
      right
      apply mem_terminalsChildren.mpr
      refine ⟨(p, c), alookup_mem hl, ?_⟩
      have := ih c (cur ++ [p]) w h
      simpa [List.append_assoc] using this

/-! ### Well-formedness of built tries -/

/-- The empty root is well formed. -/
theorem TrieWF_empty : TrieWF emptyTrie :=
  TrieWF.mk (by simp) (by simp) (by simp)

/-- Marking a node terminal preserves well-formedness. -/
theorem TrieWF_markEnd {t : TrieNode} (h : TrieWF t) (w : String) :
    TrieWF (markEnd t w) := by
  obtain ⟨cs, e, wd⟩ := t
  cases h with
  | mk hk hn hc => exact TrieWF.mk hk hn hc

/-- Inserting a path of canonical patterns preserves well-formedness. -/
theorem TrieWF_insertPath :
    ∀ (path : List (List ℕ)) (t : TrieNode), TrieWF t →
      (∀ p ∈ path, PatternValid p) → ∀ w, TrieWF (insertPath t path w) := by
  intro path
  induction path with
  | nil =>
    intro t ht hv w
    obtain ⟨cs, e, wd⟩ := t
    rw [insertPath]
    cases ht with
    | mk hk hn hc => exact TrieWF.mk hk hn hc
  | cons dots rest ih =>
    intro t ht hv w
    obtain ⟨cs, e, wd⟩ := t
    cases ht with
    | mk hk hn hc =>
      have hdots : PatternValid dots := hv dots (List.mem_cons_self _ _)
      have hrest : ∀ p ∈ rest, PatternValid p := fun p hp => hv p (List.mem_cons_of_mem _ hp)
      cases hl : alookup cs dots with
      | some child =>
        have heq : insertPath (.mk cs e wd) (dots :: rest) w
            = .mk (aset cs dots (insertPath child rest w)) e wd := by
          rw [insertPath, hl]
        rw [heq]
        refine TrieWF.mk ?_ ?_ ?_
        · intro p hp
          rcases mem_aset hp with hp | hp
          · rw [hp]; exact hdots
          · exact hk p hp
        · rw [aset_map_fst hl]
          exact hn
        · intro p hp
          rcases mem_aset hp with hp | hp
          · rw [hp]
            exact ih child (hc _ (alookup_mem hl)) hrest w
          · exact hc p hp
      | none =>
        have heq : insertPath (.mk cs e wd) (dots :: rest) w
            = .mk (cs ++ [(dots, insertPath (.mk [] false none) rest w)]) e wd := by
          rw [insertPath, hl]
        rw [heq]
        refine TrieWF.mk ?_ ?_ ?_
        · intro p hp
          rcases List.mem_append.mp hp with hp | hp
          · exact hk p hp
          · simp only [List.mem_singleton] at hp
            rw [hp]
            exact hdots
        · rw [List.map_append]
          rw [List.nodup_append]
          refine ⟨hn, by simp, ?_⟩
          intro x hx hx2
          simp only [List.map_cons, List.map_nil, List.mem_singleton] at hx2
          subst hx2
          exact alookup_eq_none hl hx
        · intro p hp
          rcases List.mem_append.mp hp with hp | hp
          · exact hc p hp
          · simp only [List.mem_singleton] at hp
            rw [hp]
            exact ih _ TrieWF_empty hrest w

/-- Adding a contraction with a canonical pattern preserves
well-formedness. -/
theorem TrieWF_addContraction {root : TrieNode} (h : TrieWF root) (w : String)
    {dots : List ℕ} (hd : PatternValid dots) : TrieWF (addContraction root w dots) := by
  obtain ⟨cs, e, wd⟩ := root
  cases h with
  | mk hk hn hc =>
    cases hl : alookup cs dots with
    | some child =>
      have heq : addContraction (.mk cs e wd) w dots
          = .mk (aset cs dots (markEnd child w)) e wd := by
        rw [addContraction, hl]
      rw [heq]
      refine TrieWF.mk ?_ ?_ ?_
      · intro p hp
        rcases mem_aset hp with hp | hp
        · rw [hp]; exact hd
        · exact hk p hp
      · rw [aset_map_fst hl]; exact hn
      · intro p hp
        rcases mem_aset hp with hp | hp
        · rw [hp]
          exact TrieWF_markEnd (hc _ (alookup_mem hl)) w
        · exact hc p hp
    | none =>
      have heq : addContraction (.mk cs e wd) w dots
          = .mk (cs ++ [(dots, markEnd (.mk [] false none) w)]) e wd := by
        rw [addContraction, hl]
      rw [heq]
      refine TrieWF.mk ?_ ?_ ?_
      · intro p hp
        rcases List.mem_append.mp hp with hp | hp
        · exact hk p hp
        · simp only [List.mem_singleton] at hp
          rw [hp]; exact hd
      · rw [List.map_append, List.nodup_append]
        refine ⟨hn, by simp, ?_⟩
        intro x hx hx2
        simp only [List.map_cons, List.map_nil, List.mem_singleton] at hx2
        subst hx2
        exact alookup_eq_none hl hx
      · intro p hp
        rcases List.mem_append.mp hp with hp | hp
        · exact hc p hp
        · simp only [List.mem_singleton] at hp
          rw [hp]
          exact TrieWF_markEnd TrieWF_empty w

/-- A well-formed dictionary registry: every registered trie is well
formed. -/
def DictWF (d : List (String × TrieNode)) : Prop := ∀ pr ∈ d, TrieWF pr.2

/-- The defaultdict read returns a registry of well-formed tries. -/
theorem DictWF_getOrCreate_snd {d : List (String × TrieNode)} {lang : String}
    (h : DictWF d) : DictWF (dictGetOrCreate d lang).2 := by
  unfold dictGetOrCreate
  cases hl : alookup d lang with
  | some t => exact h
  | none =>
    intro pr hpr
    rcases List.mem_append.mp hpr with hpr | hpr
    · exact h pr hpr
    · simp only [List.mem_singleton] at hpr
      rw [hpr]
      exact TrieWF_empty

/-- The defaultdict read returns a well-formed trie. -/
theorem DictWF_getOrCreate_fst {d : List (String × TrieNode)} {lang : String}
    (h : DictWF d) : TrieWF (dictGetOrCreate d lang).1 := by
  unfold dictGetOrCreate
  cases hl : alookup d lang with
  | some t => exact h _ (alookup_mem hl)
  | none => exact TrieWF_empty

/-- Updating a registry entry with a well-formed trie preserves registry
well-formedness. -/
theorem DictWF_aset {d : List (String × TrieNode)} {lang : String} {t : TrieNode}
    (h : DictWF d) (ht : TrieWF t) : DictWF (aset d lang t) := by
  intro pr hpr
  rcases mem_aset hpr with hpr | hpr
  · rw [hpr]; exact ht
  · exact h pr hpr

instance (l : List ℕ) : Decidable (PatternValid l) :=
  inferInstanceAs (Decidable (l.Sorted (· < ·)))

/-- All stored letter patterns are canonical. -/
theorem ENGLISH_BRAILLE_valid : ∀ pr ∈ ENGLISH_BRAILLE, PatternValid pr.2 := by
  decide

/-- Any registered braille map stores canonical patterns. -/
theorem bmapFor_valid {lang : String} {bmap : List (Char × List ℕ)}
    (h : bmapFor lang = some bmap) : ∀ pr ∈ bmap, PatternValid pr.2 := by
  simp only [bmapFor, alookup] at h
  split_ifs at h with h1 h2
  · cases h; exact ENGLISH_BRAILLE_valid
  · cases h
    intro pr hpr
    exact ENGLISH_BRAILLE_valid pr hpr

/-- add_word preserves registry well-formedness. -/
theorem add_word_WF {st : BrailleAutocorrect} {w lang : String} {st' : BrailleAutocorrect}
    (h : DictWF st.dictionaries) (ha : add_word st w lang = some st') :
    DictWF st'.dictionaries := by
  unfold add_word at ha
  cases hb : bmapFor lang with
  | some bmap =>
    rw [hb] at ha
    simp only [Option.some.injEq] at ha
    subst ha
    apply DictWF_aset (DictWF_getOrCreate_snd h)
    apply TrieWF_insertPath _ _ (DictWF_getOrCreate_fst h) _ w
    intro p hp
    rw [List.mem_map] at hp
    obtain ⟨ch, _, rfl⟩ := hp
    unfold agetD
    cases hl : alookup bmap ch with
    | some v => exact bmapFor_valid hb _ (alookup_mem hl)
    | none => exact List.sorted_nil
  | none =>
    rw [hb] at ha
    split_ifs at ha
    simp only [Option.some.injEq] at ha
    subst ha
    apply DictWF_aset (DictWF_getOrCreate_snd h)
    apply TrieWF_insertPath [] _ (DictWF_getOrCreate_fst h) (by simp) w

/-- The word loop of load_dictionary preserves registry well-formedness. -/
theorem loadWords_WF :
    ∀ (ws : List String) (st : BrailleAutocorrect) (lang : String)
      (st' : BrailleAutocorrect), DictWF st.dictionaries →
      loadWords st ws lang = some st' → DictWF st'.dictionaries := by
  intro ws
  induction ws with
  | nil =>
    intro st lang st' h hl
    rw [loadWords] at hl
    cases hl
    exact h
  | cons w ws ih =>
    intro st lang st' h hl
    rw [loadWords] at hl
    cases ha : add_word st w lang with
    | none => rw [ha] at hl; cases hl
    | some st0 =>
      rw [ha] at hl
      exact ih st0 lang st' (add_word_WF h ha) hl

/-- The contraction loop preserves registry well-formedness when all the
contraction patterns are canonical. -/
theorem contrLoop_WF :
    ∀ (l : List (String × List ℕ)) (st : BrailleAutocorrect) (lang : String),
      (∀ pr ∈ l, PatternValid pr.2) → DictWF st.dictionaries →
      DictWF (contrLoop st l lang).dictionaries := by
  intro l
  induction l with
  | nil => intro st lang _ h; rw [contrLoop]; exact h
  | cons pr rest ih =>
    intro st lang hv h
    obtain ⟨w, dots⟩ := pr
    rw [contrLoop]
    apply ih _ lang (fun pr hpr => hv pr (List.mem_cons_of_mem _ hpr))
    apply DictWF_aset (DictWF_getOrCreate_snd h)
    exact TrieWF_addContraction (DictWF_getOrCreate_fst h) w
      (hv _ (List.mem_cons_self _ _))

/-- load_dictionary preserves registry well-formedness. -/
theorem load_dictionary_WF {st : BrailleAutocorrect} {words : List String}
    {lang : String} {st' : BrailleAutocorrect} (h : DictWF st.dictionaries)
    (hl : load_dictionary st words lang = some st') : DictWF st'.dictionaries := by
  unfold load_dictionary at hl
  cases hw : loadWords st words lang with
  | none => rw [hw] at hl; cases hl
  | some st0 =>
    rw [hw] at hl
    simp only [Option.some.injEq] at hl
    subst hl
    have h0 := loadWords_WF words st lang st0 h hw
    split_ifs with he
    · exact contrLoop_WF CONTRACTIONS st0 lang (by decide) h0
    · exact h0

/-! ### The triple order is total and transitive -/

/-- Lexicographic character comparison is total. -/
theorem charListLeb_total : ∀ a b : List Char,
    charListLeb a b = true ∨ charListLeb b a = true := by
  intro a
  induction a with
  | nil => intro b; left; rfl
  | cons x as ih =>
    intro b
    cases b with
    | nil => right; rfl
    | cons y bs =>
      rcases lt_trichotomy x y with h | h | h
      · left; simp [charListLeb, h]
      · subst h
        rcases ih bs with h2 | h2
        · left; simp [charListLeb, lt_irrefl x, h2]
        · right; simp [charListLeb, lt_irrefl x, h2]
      · right; simp [charListLeb, h]

/-- Lexicographic character comparison is transitive. -/
theorem charListLeb_trans : ∀ a b c : List Char,
    charListLeb a b = true → charListLeb b c = true → charListLeb a c = true := by
  intro a
  induction a with
  | nil => intro b c _ _; rfl
  | cons x as ih =>
    intro b c hab hbc
    cases b with
    | nil => simp [charListLeb] at hab
    | cons y bs =>
      cases c with
      | nil => simp [charListLeb] at hbc
      | cons z cs2 =>
        by_cases hxy : x < y
        · by_cases hyz : y < z
          · have : x < z := lt_trans hxy hyz
            simp [charListLeb, this]
          · rw [charListLeb, if_neg hyz] at hbc
            by_cases hyz2 : y = z
            · have : x < z := hyz2 ▸ hxy
              simp [charListLeb, this]
            · rw [if_neg hyz2] at hbc
              simp at hbc
        · rw [charListLeb, if_neg hxy] at hab
          by_cases hxy2 : x = y
          · rw [if_pos hxy2] at hab
            by_cases hyz : y < z
            · have : x < z := hxy2 ▸ hyz
              simp [charListLeb, this]
            · rw [charListLeb, if_neg hyz] at hbc
              by_cases hyz2 : y = z
              · rw [if_pos hyz2] at hbc
                have hxz : x = z := hxy2.trans hyz2
                have hlt : ¬ x < z := by rw [hxz]; exact lt_irrefl z
                rw [charListLeb, if_neg hlt, if_pos hxz]
                exact ih bs cs2 hab hbc
              · rw [if_neg hyz2] at hbc
                simp at hbc
          · rw [if_neg hxy2] at hab
            simp at hab

instance : IsTrans (ℚ × ℚ × String) TripleLE := by
  constructor
  rintro a b c hab hbc
  rcases hab with h1 | ⟨h1, hab2⟩
  · rcases hbc with h2 | ⟨h2, _⟩
    · exact Or.inl (lt_trans h1 h2)
    · exact Or.inl (h2 ▸ h1)
  · rcases hbc with h2 | ⟨h2, hbc2⟩
    · exact Or.inl (h1 ▸ h2)
    · refine Or.inr ⟨h1.trans h2, ?_⟩
      rcases hab2 with h3 | ⟨h3, hab3⟩
      · rcases hbc2 with h4 | ⟨h4, _⟩
        · exact Or.inl (lt_trans h3 h4)
        · exact Or.inl (h4 ▸ h3)
      · rcases hbc2 with h4 | ⟨h4, hbc3⟩
        · exact Or.inl (h3 ▸ h4)
        · exact Or.inr ⟨h3.trans h4, charListLeb_trans _ _ _ hab3 hbc3⟩

instance : IsTotal (ℚ × ℚ × String) TripleLE := by
  constructor
  intro a b
  rcases lt_trichotomy a.1 b.1 with h | h | h
  · exact Or.inl (Or.inl h)
  · rcases lt_trichotomy a.2.1 b.2.1 with h2 | h2 | h2
    · exact Or.inl (Or.inr ⟨h, Or.inl h2⟩)
    · rcases charListLeb_total a.2.2.data b.2.2.data with h3 | h3
      · exact Or.inl (Or.inr ⟨h, Or.inr ⟨h2, h3⟩⟩)
      · exact Or.inr (Or.inr ⟨h.symm, Or.inr ⟨h2.symm, h3⟩⟩)
    · exact Or.inr (Or.inr ⟨h.symm, Or.inl h2⟩)
  · exact Or.inr (Or.inl h)

/-- The first component never decreases along the triple order. -/
theorem TripleLE_fst_le {x y : ℚ × ℚ × String} (h : TripleLE x y) : x.1 ≤ y.1 := by
  rcases h with h | ⟨h, _⟩
  · exact le_of_lt h
  · exact le_of_eq h

/-! ### Correction counter lemmas -/

/-- The defaultdict zero-insertion does not change any read count. -/
theorem countOf_touch (c : List (String × ℕ)) (s s' : String) :
    countOf (touch c s) s' = countOf c s' := by
  induction c with
  | nil =>
    unfold touch countOf agetD alookup
    split_ifs with h
    · subst h; simp [alookup]
    · simp [alookup]
  | cons p rest ih =>
    obtain ⟨k, v⟩ := p
    unfold touch
    split_ifs with h
    · rfl
    · unfold countOf agetD alookup
      split_ifs with h2
      · rfl
      · exact ih

/-- Folding defaultdict zero-insertions does not change any read count. -/
theorem countOf_foldl_touch {β : Type} (f : β → String) :
    ∀ (l : List β) (c : List (String × ℕ)) (s : String),
      countOf (l.foldl (fun c ew => touch c (f ew)) c) s = countOf c s := by
  intro l
  induction l with
  | nil => intro c s; rfl
  | cons b rest ih =>
    intro c s
    rw [List.foldl_cons, ih, countOf_touch]

/-- The defaultdict zero-insertion preserves every stored entry. -/
theorem alookup_touch_of_some {c : List (String × ℕ)} {s s' : String} {n : ℕ}
    (h : alookup c s' = some n) : alookup (touch c s) s' = some n := by
  induction c with
  | nil => simp [alookup] at h
  | cons p rest ih =>
    obtain ⟨k, v⟩ := p
    unfold touch
    split_ifs with hk
    · exact h
    · unfold alookup at h ⊢
      split_ifs at h ⊢ with h2
      · exact h
      · exact ih h

/-- Folded zero-insertions preserve every stored entry. -/
theorem alookup_foldl_touch_of_some {β : Type} (f : β → String) :
    ∀ (l : List β) (c : List (String × ℕ)) (s' : String) (n : ℕ),
      alookup c s' = some n →
      alookup (l.foldl (fun c ew => touch c (f ew)) c) s' = some n := by
  intro l
  induction l with
  | nil => intro c s' n h; exact h
  | cons b rest ih =>
    intro c s' n h
    rw [List.foldl_cons]
    exact ih _ _ _ (alookup_touch_of_some h)

/-- learn_correction increments exactly the lowercased word's count. -/
theorem countOf_bump_self (c : List (String × ℕ)) (s : String) :
    countOf (bump c s) s = countOf c s + 1 := by
  induction c with
  | nil => simp [bump, countOf, agetD, alookup]
  | cons p rest ih =>
    obtain ⟨k, v⟩ := p
    unfold bump
    split_ifs with h
    · unfold countOf agetD alookup
      rw [if_pos h, if_pos h]
      simp
    · unfold countOf agetD alookup
      rw [if_neg h, if_neg h]
      exact ih

/-- learn_correction leaves every other count unchanged. -/
theorem countOf_bump_other (c : List (String × ℕ)) (s s' : String) (h : s' ≠ s) :
    countOf (bump c s) s' = countOf c s' := by
  induction c with
  | nil =>
    unfold bump countOf agetD alookup
    rw [if_neg (fun hh => h hh.symm)]
    simp [alookup]
  | cons p rest ih =>
    obtain ⟨k, v⟩ := p
    unfold bump
    split_ifs with hk
    · unfold countOf agetD alookup
      subst hk
      rw [if_neg (fun hh => h hh.symm), if_neg (fun hh => h hh.symm)]
    · unfold countOf agetD alookup
      split_ifs with h2
      · rfl
      · exact ih

/-! ### The shape of a successful suggestion call -/

/-- The recorded (score, distance, word) triples of a suggestion request,
one per dfs terminal. -/
def suggestTriples (st : BrailleAutocorrect) (input_dots : List (List ℕ))
    (language : String) : List (ℚ × ℚ × String) :=
  ((dictGetOrCreate st.dictionaries language).1.terminalsFrom []).map (fun ew =>
    (levenshtein_distance input_dots ew.1
       - learnBonus (countOf st.corrections (pyLower ew.2)),
     levenshtein_distance input_dots ew.1, ew.2))

/-- Unfolding a successful, nonempty suggestion request. -/
theorem suggest_word_ok {st : BrailleAutocorrect} {input_seq language : String}
    {k : ℕ} {input_dots : List (List ℕ)}
    (hparse : input_to_braille input_seq = .ok input_dots) (hne : input_dots ≠ []) :
    suggest_word st input_seq language k =
      .ok (((List.insertionSort TripleLE (suggestTriples st input_dots language)).take
          k).map (fun s => s.2.2),
        ⟨(dictGetOrCreate st.dictionaries language).2,
         ((dictGetOrCreate st.dictionaries language).1.terminalsFrom []).foldl
           (fun c ew => touch c (pyLower ew.2)) st.corrections⟩) := by
  unfold suggest_word
  rw [hparse]
  simp only [if_neg hne]
  rfl

/-! ### Claim theorems -/

/-- C3: for every input sequence A (length n) and candidate sequence B
(length m), the scorer's distance equals the final cell of the standard
edit-distance dynamic program with unit insertion and deletion cost and
substitution cost normalized_dot_distance — which is symmetric, 1.0 on two
empty patterns and 0 on identical nonempty patterns — plus a length-skew
penalty of 0.5 × |n − m| added exactly once outside the recurrence. -/
theorem claim_C3_scorer_is_standard_dp :
    (∀ A B : List (List ℕ),
      levenshtein_distance A B
        = specEditDP A B A.length B.length
          + 0.5 * |(A.length : ℚ) - (B.length : ℚ)|)
    ∧ (∀ p q : List ℕ, normalized_dot_distance p q = normalized_dot_distance q p)
    ∧ normalized_dot_distance [] [] = 1
    ∧ (∀ p : List ℕ, p ≠ [] → normalized_dot_distance p p = 0) := by
  refine ⟨?_, normalized_dot_distance_comm, normalized_dot_distance_nil_nil,
    fun p hp => normalized_dot_distance_self hp⟩
  intro A B
  rw [levenshtein_distance_eq_specEditDP]
  ring

/-- Witness for C3 at a concrete nonempty pattern. -/
theorem claim_C3_witness : normalized_dot_distance [1] [1] = 0 :=
  claim_C3_scorer_is_standard_dp.2.2.2 [1] (by decide)

/-- Splitting an all-whitespace character list on whitespace leaves no
nonempty piece. -/
theorem splitOnP_ws_filter : ∀ l : List Char, (∀ c ∈ l, c.isWhitespace) →
    (l.splitOnP Char.isWhitespace).filter (· ≠ []) = [] := by
  intro l
  induction l with
  | nil => intro _; simp [List.splitOnP_nil]
  | cons c rest ih =>
    intro h
    rw [List.splitOnP_cons, if_pos (h c (List.mem_cons_self _ _)),
      List.filter_cons_of_neg (by simp)]
    exact ih (fun c' hc' => h c' (List.mem_cons_of_mem _ hc'))

/-- C8: for every empty or whitespace-only input string and every
registered language, suggest returns the empty list immediately, with the
state untouched (no trie traversal) and no error. -/
theorem claim_C8_blank_input_empty_result :
    ∀ (st : BrailleAutocorrect) (s language : String) (k : ℕ),
    (∀ c ∈ s.data, c.isWhitespace) →
    (alookup st.dictionaries language).isSome = true →
    suggest_word st s language k = .ok ([], st) := by
  intro st s language k hws _
  have hsplit : pySplitWs s = [] := by
    unfold pySplitWs
    rw [splitOnP_ws_filter s.data hws]
    rfl
  have hparse : input_to_braille s = .ok [] := by
    unfold input_to_braille
    rw [hsplit]
    rfl
  unfold suggest_word
  rw [hparse]
  rfl

/-- A state with the one-word dictionary [a] loaded for english (the
contraction for the is loaded along with it). -/
def stA : BrailleAutocorrect :=
  match load_dictionary initState ["a"] "english" with
  | some st => st
  | none => initState

theorem claim_C8_witness : suggest_word stA " " "english" 1 = .ok ([], stA) :=
  claim_C8_blank_input_empty_result stA " " "english" 1 (by decide) (by decide)

/-- C10: a nonempty token with an empty '+'-separated segment (leading,
trailing or doubled '+') is rejected by keys_to_dots with the empty string
among the reported offending symbols. -/
theorem claim_C10_empty_segment_rejected :
    ∀ t : String, t ≠ "" → "" ∈ pySplitPlus t →
    keys_to_dots t
        = .error (.invalidKey ((pySplitPlus t).toFinset \ validKeys) validKeys)
      ∧ "" ∈ (pySplitPlus t).toFinset \ validKeys := by
  intro t ht hmem
  have hnotval : ("" : String) ∉ validKeys := by decide
  have hnotsub : ¬ (pySplitPlus t).toFinset ⊆ validKeys :=
    fun hsub => hnotval (hsub (List.mem_toFinset.mpr hmem))
  constructor
  · simp only [keys_to_dots, if_neg ht, if_neg hnotsub]
  · exact Finset.mem_sdiff.mpr ⟨List.mem_toFinset.mpr hmem, hnotval⟩

/-- Witness for C10 on the token with a trailing '+'. -/
theorem claim_C10_witness :
    keys_to_dots "D+"
        = .error (.invalidKey ((pySplitPlus "D+").toFinset \ validKeys) validKeys)
      ∧ "" ∈ (pySplitPlus "D+").toFinset \ validKeys :=
  claim_C10_empty_segment_rejected "D+" (by decide) (by decide)

/-- A token whose symbol set is contained in the valid keys parses
successfully. -/
theorem keys_to_dots_ok_of_subset {t : String}
    (h : (pySplitPlus t).toFinset ⊆ validKeys) : ∃ d, keys_to_dots t = .ok d := by
  by_cases ht : t = ""
  · exact ⟨[], by rw [ht]; rfl⟩
  · refine ⟨List.insertionSort (· ≤ ·)
      ((DOT_TO_KEY.filter (fun p => p.2 ∈ (pySplitPlus t).toFinset)).map (·.1)), ?_⟩
    simp only [keys_to_dots, if_neg ht, if_pos h]

/-- Parsing a token list whose prefix is valid propagates the error of the
leftmost offending token. -/
theorem parseTokens_error :
    ∀ (ts1 : List String) (t : String) (ts2 : List String) (e : BrailleError),
    (∀ t' ∈ ts1, ∃ d, keys_to_dots t' = .ok d) → keys_to_dots t = .error e →
    parseTokens (ts1 ++ t :: ts2) = .error e := by
  intro ts1
  induction ts1 with
  | nil =>
    intro t ts2 e _ he
    rw [List.nil_append, parseTokens, he]
  | cons t1 rest ih =>
    intro t ts2 e hok he
    obtain ⟨d1, hd1⟩ := hok t1 (List.mem_cons_self _ _)
    rw [List.cons_append, parseTokens, hd1,
      ih t ts2 e (fun t' ht' => hok t' (List.mem_cons_of_mem _ ht')) he]

/-- C4: for every input string containing a token with a symbol outside
the six valid keys, suggest raises InvalidKeyError carrying exactly the
offending-symbol set and the valid key set of the leftmost offending
token; no suggestion result is produced. -/
theorem claim_C4_invalid_key_error :
    ∀ (st : BrailleAutocorrect) (s language : String) (k : ℕ)
      (ts1 : List String) (t0 : String) (ts2 : List String),
    pySplitWs s = ts1 ++ t0 :: ts2 →
    (∀ t' ∈ ts1, (pySplitPlus t').toFinset ⊆ validKeys) →
    ¬ (pySplitPlus t0).toFinset ⊆ validKeys →
    suggest_word st s language k
      = .error (.invalidKey ((pySplitPlus t0).toFinset \ validKeys) validKeys) := by
  intro st s language k ts1 t0 ts2 hsplit hvalid hbad
  have ht0ne : t0 ≠ "" := by
    apply pySplitWs_ne_empty (s := s)
    rw [hsplit]
    exact List.mem_append.mpr (Or.inr (List.mem_cons_self _ _))
  have he : keys_to_dots t0
      = .error (.invalidKey ((pySplitPlus t0).toFinset \ validKeys) validKeys) := by
    simp only [keys_to_dots, if_neg ht0ne, if_neg hbad]
  have hparse : input_to_braille s
      = .error (.invalidKey ((pySplitPlus t0).toFinset \ validKeys) validKeys) := by
    unfold input_to_braille
    rw [hsplit]
    exact parseTokens_error ts1 t0 ts2 _
      (fun t' ht' => keys_to_dots_ok_of_subset (hvalid t' ht')) he
  unfold suggest_word
  rw [hparse]

/-- Witness for C4 on the input with a valid first token and an invalid
second token. -/
theorem claim_C4_witness :
    suggest_word initState "D A" "english" 1
      = .error (.invalidKey ((pySplitPlus "A").toFinset \ validKeys) validKeys) :=
  claim_C4_invalid_key_error initState "D A" "english" 1 ["D"] "A" []
    (by decide) (by decide) (by decide)

/-- Base case of the dfs child loop. -/
theorem terminalsChildren_nil (cur : List (List ℕ)) : terminalsChildren [] cur = [] := by
  rw [terminalsChildren]

/-- Step case of the dfs child loop. -/
theorem terminalsChildren_cons (k : List ℕ) (c : TrieNode)
    (rest : List (List ℕ × TrieNode)) (cur : List (List ℕ)) :
    terminalsChildren ((k, c) :: rest) cur
      = c.terminalsFrom (cur ++ [k]) ++ terminalsChildren rest cur := by
  rw [terminalsChildren]

/-- The dfs of an empty trie records nothing. -/
theorem terminalsFrom_empty (cur : List (List ℕ)) :
    TrieNode.terminalsFrom emptyTrie cur = [] := by
  rw [show emptyTrie = TrieNode.mk [] false none from rfl, terminalsFrom_mk,
    terminalsChildren_nil]
  rfl

/-- An entry found in a registry is still found after appending entries. -/
theorem alookup_append_some {κ α : Type} [DecidableEq κ] {d : List (κ × α)} {l : κ}
    {t : α} (h : alookup d l = some t) (d2 : List (κ × α)) :
    alookup (d ++ d2) l = some t := by
  induction d with
  | nil => simp [alookup] at h
  | cons p rest ih =>
    obtain ⟨k, v⟩ := p
    rw [List.cons_append]
    unfold alookup at h ⊢
    split_ifs at h ⊢ with hk
    · exact h
    · exact ih h

/-- C2 (amended): a suggest/process_input call that targets a language
with no loaded dictionary and parses to a nonempty pattern sequence does
not fail — no UnknownLanguageError exists in the code — it returns the
empty suggestion list, after the defaultdict registers a fresh empty trie
under that language. -/
theorem claim_C2_unknown_language_empty_result :
    ∀ (st : BrailleAutocorrect) (s language : String) (k : ℕ) (dots : List (List ℕ)),
    input_to_braille s = .ok dots → dots ≠ [] →
    alookup st.dictionaries language = none →
    suggest_word st s language k
      = .ok ([], ⟨st.dictionaries ++ [(language, emptyTrie)], st.corrections⟩) := by
  intro st s language k dots hp hne hl
  rw [suggest_word_ok hp hne]
  have hgc : dictGetOrCreate st.dictionaries language
      = (emptyTrie, st.dictionaries ++ [(language, emptyTrie)]) := by
    unfold dictGetOrCreate
    rw [hl]
  simp [suggestTriples, hgc, terminalsFrom_empty]

/-- Witness for the amended C2 at a concrete fresh state. -/
theorem claim_C2_witness :
    suggest_word initState "D" "german" 1
      = .ok ([], ⟨[("german", emptyTrie)], []⟩) :=
  claim_C2_unknown_language_empty_result initState "D" "german" 1 [[1]]
    rfl (by decide) rfl

/-- Counterexample for C2 as stated: at a concrete state with no loaded
dictionary for the target language, the call returns an ok value (the
empty suggestion list) instead of failing with any error. -/
theorem claim_C2_counterexample :
    suggest_word initState "W" "german" 2
      = .ok ([], ⟨[("german", emptyTrie)], []⟩) := by
  rw [suggest_word_ok (show input_to_braille "W" = .ok [[2]] from rfl) (by decide)]
  have hgc : dictGetOrCreate ([] : List (String × TrieNode)) "german"
      = (emptyTrie, [("german", emptyTrie)]) := by
    unfold dictGetOrCreate alookup
    rfl
  simp [suggestTriples, hgc, terminalsFrom_empty, initState]

/-- C5 (amended): a suggest/process_input call never changes any read
correction count, any stored correction entry, or any registered
language's trie; it can only append defaultdict entries (an empty trie for
an unregistered queried language, zero counts for visited words), and
record_correction (learn_correction) remains the only operation that
changes a stored value. -/
theorem claim_C5_suggest_preserves_state :
    ∀ (st : BrailleAutocorrect) (s language : String) (k : ℕ) (res : List String)
      (st' : BrailleAutocorrect),
    suggest_word st s language k = .ok (res, st') →
    (∀ x, countOf st'.corrections x = countOf st.corrections x)
    ∧ (∀ x n, alookup st.corrections x = some n → alookup st'.corrections x = some n)
    ∧ (∀ l t, alookup st.dictionaries l = some t → alookup st'.dictionaries l = some t) := by
  intro st s language k res st' h
  cases hp : input_to_braille s with
  | error e =>
    unfold suggest_word at h
    rw [hp] at h
    cases h
  | ok dots =>
    by_cases hne : dots = []
    · unfold suggest_word at h
      rw [hp] at h
      subst hne
      have h2 : (Except.ok ([], st) :
          Except BrailleError (List String × BrailleAutocorrect))
            = Except.ok (res, st') := h
      simp only [Except.ok.injEq, Prod.mk.injEq] at h2
      rw [← h2.2]
      exact ⟨fun x => rfl, fun x n hx => hx, fun l t ht => ht⟩
    · rw [suggest_word_ok hp hne] at h
      simp only [Except.ok.injEq, Prod.mk.injEq] at h
      rw [← h.2]
      refine ⟨?_, ?_, ?_⟩
      · intro x
        exact countOf_foldl_touch _ _ _ _
      · intro x n hx
        exact alookup_foldl_touch_of_some _ _ _ _ _ hx
      · intro l t ht
        show alookup (dictGetOrCreate st.dictionaries language).2 l = some t
        unfold dictGetOrCreate
        cases hl : alookup st.dictionaries language with
        | some t2 => exact ht
        | none => exact alookup_append_some ht _

/-- Witness for the amended C5 on a concrete empty-input call. -/
theorem claim_C5_witness :
    countOf stA.corrections "a" = countOf stA.corrections "a" :=
  (claim_C5_suggest_preserves_state stA "" "english" 1 [] stA rfl).1 "a"

/-- Counterexample for C5 as stated: on a concrete loaded state with no
recorded corrections, one suggest call returns a state whose corrections
store has grown (by the defaultdict zero entries of the visited words), so
the learning store is not identical before and after. -/
theorem claim_C5_counterexample :
    (suggest_word stA "D" "english" 1).map (fun p => p.2.corrections)
        = .ok [("a", 0), ("the", 0)]
      ∧ stA.corrections = [] := by
  constructor
  · rw [suggest_word_ok (show input_to_braille "D" = .ok [[1]] from rfl) (by decide)]
    have hroot : dictGetOrCreate stA.dictionaries "english"
        = (TrieNode.mk [([1], .mk [] true (some "a")), ([2, 3, 4, 6], .mk [] true (some "the"))]
            false none, stA.dictionaries) := by
      rfl
    rw [Except.map]
    simp only [hroot, terminalsFrom_mk, terminalsChildren_cons, terminalsChildren_nil]
    rfl
  · rfl

/-- C6: a successful nonempty query returns exactly the words of the first
min(k, number of terminal-carried words) triples of the ascending
(score, distance, word) sort of the recorded triples; with no terminals
the result is empty. -/
theorem claim_C6_sort_and_take :
    ∀ (st : BrailleAutocorrect) (s language : String) (k : ℕ) (dots : List (List ℕ)),
    input_to_braille s = .ok dots → dots ≠ [] →
    (suggest_word st s language k).map (fun p => p.1)
        = .ok (((List.insertionSort TripleLE (suggestTriples st dots language)).take
            k).map (fun tr => tr.2.2))
    ∧ (List.insertionSort TripleLE (suggestTriples st dots language)).Sorted TripleLE
    ∧ (List.insertionSort TripleLE (suggestTriples st dots language)).Perm
        (suggestTriples st dots language)
    ∧ (((List.insertionSort TripleLE (suggestTriples st dots language)).take k).map
        (fun tr => tr.2.2)).length
        = min k ((dictGetOrCreate st.dictionaries language).1.terminalsFrom []).length
    ∧ ((dictGetOrCreate st.dictionaries language).1.terminalsFrom [] = [] →
        (suggest_word st s language k).map (fun p => p.1) = .ok []) := by
  intro st s language k dots hp hne
  have hok := @suggest_word_ok st s language k dots hp hne
  refine ⟨?_, List.sorted_insertionSort _ _, List.perm_insertionSort _ _, ?_, ?_⟩
  · rw [hok]
    rfl
  · rw [List.length_map, List.length_take]
    congr 1
    rw [(List.perm_insertionSort TripleLE _).length_eq]
    unfold suggestTriples
    rw [List.length_map]
  · intro hterm
    rw [hok]
    unfold suggestTriples
    rw [hterm]
    simp [Except.map]

/-- Witness for C6 on a concrete query. -/
theorem claim_C6_witness :
    (List.insertionSort TripleLE (suggestTriples initState [[1]] "german")).Sorted
      TripleLE :=
  (claim_C6_sort_and_take initState "D" "german" 1 [[1]] rfl (by decide)).2.1

/-- The learning bonus saturates at count 5. -/
theorem learnBonus_cap {n : ℕ} (h : 5 ≤ n) : learnBonus n = 0.5 := by
  unfold learnBonus
  rw [min_eq_left]
  have h5 : (5 : ℚ) ≤ (n : ℚ) := by exact_mod_cast h
  linarith

/-- C7: the ranking bonus is min(0.5, 0.1 × count of the lowercased word);
each learn_correction call adds exactly 1 to that word's stored count and
never decrements any count; from count 5 on the bonus is exactly 0.5, so a
further call changes no suggestion result while the count keeps growing. -/
theorem claim_C7_bonus_cap_and_counts :
    (∀ n : ℕ, learnBonus n = min 0.5 (0.1 * (n : ℚ)))
    ∧ (∀ (st : BrailleAutocorrect) (i w : String),
        countOf (learn_correction st i w).corrections (pyLower w)
          = countOf st.corrections (pyLower w) + 1)
    ∧ (∀ (st : BrailleAutocorrect) (i w x : String),
        countOf st.corrections x ≤ countOf (learn_correction st i w).corrections x)
    ∧ (∀ n : ℕ, 5 ≤ n → learnBonus n = 0.5)
    ∧ (∀ (st : BrailleAutocorrect) (i w s language : String) (k : ℕ),
        5 ≤ countOf st.corrections (pyLower w) →
        (suggest_word (learn_correction st i w) s language k).map (fun p => p.1)
          = (suggest_word st s language k).map (fun p => p.1)) := by
  refine ⟨fun n => rfl, ?_, ?_, fun n h => learnBonus_cap h, ?_⟩
  · intro st i w
    exact countOf_bump_self st.corrections (pyLower w)
  · intro st i w x
    by_cases hx : x = pyLower w
    · subst hx
      rw [show (learn_correction st i w).corrections
          = bump st.corrections (pyLower w) from rfl]
      rw [countOf_bump_self]
      exact Nat.le_succ _
    · rw [show (learn_correction st i w).corrections
          = bump st.corrections (pyLower w) from rfl]
      rw [countOf_bump_other _ _ _ hx]
  · intro st i w s language k h5
    cases hp : input_to_braille s with
    | error e =>
      unfold suggest_word
      rw [hp]
    | ok dots =>
      by_cases hne : dots = []
      · subst hne
        unfold suggest_word
        rw [hp]
        rfl
      · rw [@suggest_word_ok (learn_correction st i w) s language k dots hp hne,
          @suggest_word_ok st s language k dots hp hne]
        simp only [Except.map]
        have htr : suggestTriples (learn_correction st i w) dots language
            = suggestTriples st dots language := by
          unfold suggestTriples
          rw [show (learn_correction st i w).dictionaries = st.dictionaries from rfl]
          apply List.map_congr_left
          intro ew _
          rw [show (learn_correction st i w).corrections
              = bump st.corrections (pyLower w) from rfl]
          by_cases hv : pyLower ew.2 = pyLower w
          · rw [hv, countOf_bump_self,
              learnBonus_cap (le_trans h5 (Nat.le_succ _)), learnBonus_cap h5]
          · rw [countOf_bump_other _ _ _ hv]
        rw [htr]

/-- Witness for C7: the bonus at count 5 is exactly one half. -/
theorem claim_C7_witness : learnBonus 5 = 0.5 :=
  claim_C7_bonus_cap_and_counts.2.2.2.1 5 (by norm_num)

/-- Lexicographic character comparison is reflexive. -/
theorem charListLeb_refl : ∀ a : List Char, charListLeb a a = true := by
  intro a
  induction a with
  | nil => rfl
  | cons x as ih => simp [charListLeb, lt_irrefl x, ih]

/-- The triple order is reflexive. -/
theorem TripleLE_refl (x : ℚ × ℚ × String) : TripleLE x x :=
  Or.inr ⟨rfl, Or.inr ⟨rfl, charListLeb_refl _⟩⟩

/-- C1: on a well-formed (loaded) dictionary, an input whose parsed
pattern sequence is exactly the root-to-terminal path of a stored word w,
with no positive correction count recorded, gets edit distance 0 for w, no
candidate scores below 0, and w comes back as the first suggestion. -/
theorem claim_C1_exact_match_top_ranked :
    ∀ (st : BrailleAutocorrect) (s language : String) (k : ℕ)
      (A : List (List ℕ)) (w : String),
    DictWF st.dictionaries →
    input_to_braille s = .ok A → A ≠ [] →
    findWordAux (dictGetOrCreate st.dictionaries language).1 A = some w →
    (∀ x, countOf st.corrections x = 0) →
    1 ≤ k →
    levenshtein_distance A A = 0
    ∧ (∀ tr ∈ suggestTriples st A language, 0 ≤ tr.1)
    ∧ (suggest_word st s language k).map (fun p => p.1.head?) = .ok (some w) := by
  intro st s language k A w hwf hp hne hfind hcorr hk
  obtain ⟨hAv, hAn⟩ := input_to_braille_valid hp
  have hroot : TrieWF (dictGetOrCreate st.dictionaries language).1 :=
    DictWF_getOrCreate_fst hwf
  have hself : levenshtein_distance A A = 0 := levenshtein_distance_self A hAn
  have hbonus : ∀ x, learnBonus (countOf st.corrections x) = 0 := by
    intro x
    rw [hcorr x]
    norm_num [learnBonus]
  set root := (dictGetOrCreate st.dictionaries language).1 with hrootdef
  have htr_form : ∀ tr ∈ suggestTriples st A language,
      ∃ pv ∈ root.terminalsFrom [],
        tr = (levenshtein_distance A pv.1, levenshtein_distance A pv.1, pv.2) := by
    intro tr htr
    unfold suggestTriples at htr
    rw [List.mem_map] at htr
    obtain ⟨pv, hpv, heq⟩ := htr
    refine ⟨pv, hpv, ?_⟩
    rw [← heq, hbonus, sub_zero]
  have hnonneg : ∀ tr ∈ suggestTriples st A language, 0 ≤ tr.1 := by
    intro tr htr
    obtain ⟨pv, _, rfl⟩ := htr_form tr htr
    exact levenshtein_distance_nonneg _ _
  refine ⟨hself, hnonneg, ?_⟩
  have hmemA : (A, w) ∈ root.terminalsFrom [] := by
    have := findWordAux_mem_terminalsFrom A root [] w hfind
    simpa using this
  have ht0 : ((levenshtein_distance A A, levenshtein_distance A A, w) : ℚ × ℚ × String)
      ∈ suggestTriples st A language := by
    unfold suggestTriples
    rw [List.mem_map]
    exact ⟨(A, w), hmemA, by rw [hbonus, sub_zero]⟩
  have hzero_w : ∀ tr ∈ suggestTriples st A language, tr.1 ≤ 0 → tr.2.2 = w := by
    intro tr htr h0
    obtain ⟨pv, hpv, rfl⟩ := htr_form tr htr
    have hd0 : levenshtein_distance A pv.1 = 0 :=
      le_antisymm h0 (levenshtein_distance_nonneg _ _)
    obtain ⟨rest, hpath, hvalidp, hfw⟩ := terminalsFrom_spec hroot [] pv hpv
    rw [List.nil_append] at hpath
    have hAp : A = pv.1 := by
      apply levenshtein_distance_eq_zero A pv.1 hAv hAn ?_ hd0
      rw [hpath]
      exact hvalidp
    have hfv : findWordAux root A = some pv.2 := by
      rw [hAp, hpath]
      exact hfw
    exact Option.some.inj (hfv.symm.trans hfind)
  have hperm := List.perm_insertionSort TripleLE (suggestTriples st A language)
  have hsorted := List.sorted_insertionSort TripleLE (suggestTriples st A language)
  have ht0S : ((levenshtein_distance A A, levenshtein_distance A A, w)
      : ℚ × ℚ × String) ∈ List.insertionSort TripleLE (suggestTriples st A language) :=
    hperm.mem_iff.mpr ht0
  obtain ⟨h, hrest, hcons⟩ : ∃ h hrest,
      List.insertionSort TripleLE (suggestTriples st A language) = h :: hrest := by
    cases hSc : List.insertionSort TripleLE (suggestTriples st A language) with
    | nil => rw [hSc] at ht0S; simp at ht0S
    | cons h r => exact ⟨h, r, rfl⟩
  have hhS : h ∈ suggestTriples st A language := by
    apply hperm.mem_iff.mp
    rw [hcons]
    exact List.mem_cons_self h hrest
  have hle : TripleLE h (levenshtein_distance A A, levenshtein_distance A A, w) := by
    rw [hcons] at ht0S
    rcases List.mem_cons.mp ht0S with heq | hmem
    · rw [← heq]
      exact TripleLE_refl _
    · rw [hcons] at hsorted
      exact List.rel_of_sorted_cons hsorted _ hmem
  have hh1 : h.1 ≤ 0 := by
    have h2 := TripleLE_fst_le hle
    rw [hself] at h2
    simpa using h2
  have hword : h.2.2 = w := hzero_w h hhS hh1
  rw [suggest_word_ok hp hne]
  obtain ⟨k', rfl⟩ : ∃ k', k = k' + 1 := ⟨k - 1, by omega⟩
  rw [hcons]
  simp [Except.map, hword]

/-- A state with the dictionary [a, u] loaded for english (the contraction
for the is loaded along with it). -/
def stAU : BrailleAutocorrect :=
  match load_dictionary initState ["a", "u"] "english" with
  | some st => st
  | none => initState

/-- Witness for C1: on the loaded [a, u] dictionary, the input D parses to
the stored path of a and a comes back first. -/
theorem claim_C1_witness :
    (suggest_word stAU "D" "english" 1).map (fun p => p.1.head?) = .ok (some "a") :=
  (claim_C1_exact_match_top_ranked stAU "D" "english" 1 [[1]] "a"
    (@load_dictionary_WF initState ["a", "u"] "english" stAU
      (fun pr hpr => absurd hpr (by simp [initState])) (by rfl))
    rfl (by decide) (by rfl) (fun x => rfl) (by norm_num)).2.2

/-- The substitution cost never exceeds 1. -/
theorem normalized_dot_distance_le_one (p q : List ℕ) :
    normalized_dot_distance p q ≤ 1 := by
  simp only [normalized_dot_distance]
  split
  · norm_num
  · have : (0 : ℚ) ≤ ((p.toFinset ∩ q.toFinset).card : ℚ)
        / ((p.toFinset ∪ q.toFinset).card : ℚ) := by positivity
    linarith

/-- On two one-pattern sequences the braille.py scorer is exactly the
substitution cost. -/
theorem levenshtein_distance_single (p q : List ℕ) :
    levenshtein_distance [p] [q] = normalized_dot_distance p q := by
  rw [levenshtein_distance_eq_specEditDP]
  have h1 := normalized_dot_distance_le_one p q
  have h0 := normalized_dot_distance_nonneg p q
  have hdp : specEditDP [p] [q] 1 1 = normalized_dot_distance p q := by
    have hstep : specEditDP [p] [q] 1 1
        = min (specEditDP [p] [q] 0 1 + 1)
          (min (specEditDP [p] [q] 1 0 + 1)
            (specEditDP [p] [q] 0 0
              + normalized_dot_distance ([p].getD 0 []) ([q].getD 0 []))) := by
      simp [specEditDP]
    have e1 : specEditDP [p] [q] 0 1 = 1 := by simp [specEditDP]
    have e2 : specEditDP [p] [q] 1 0 = 1 := by simp [specEditDP]
    have e3 : specEditDP [p] [q] 0 0 = 0 := by simp [specEditDP]
    rw [hstep, e1, e2, e3, List.getD_cons_zero, List.getD_cons_zero]
    rw [min_eq_right (show (0 : ℚ) + normalized_dot_distance p q ≤ 1 + 1 from by linarith)]
    rw [min_eq_right (show (0 : ℚ) + normalized_dot_distance p q ≤ 1 + 1 from by linarith)]
    ring
  simp only [List.length_singleton]
  rw [hdp]
  norm_num

/-- With no recorded corrections the bonus vanishes. -/
theorem learnBonus_zero : learnBonus 0 = 0 := by
  norm_num [learnBonus]

/-- On two one-pattern sequences the test2.py scorer is exactly its
substitution cost (stated for patterns whose symmetric difference has at
most 12 dots, which covers every pattern drawn from the six dots). -/
theorem t2_levenshtein_distance_single (p q : List ℕ)
    (h12 : hamming_distance p q ≤ 12) :
    Test2.levenshtein_distance [p] [q]
      = (if 0 < hamming_distance p q then (hamming_distance p q : ℚ) / 6 else 0) := by
  have hb : (0 : ℚ) ≤ (if 0 < hamming_distance p q then (hamming_distance p q : ℚ) / 6 else 0) := by
    split <;> positivity
  have hb1 : (if 0 < hamming_distance p q then (hamming_distance p q : ℚ) / 6 else 0) ≤ 2 := by
    split
    · have h12q : ((hamming_distance p q : ℚ)) ≤ 12 := by exact_mod_cast h12
      linarith
    · norm_num
  unfold Test2.levenshtein_distance
  simp only [List.length_singleton, lt_self_iff_false, if_false]
  rw [if_neg (List.cons_ne_nil q [])]
  rw [show (List.range (1 + 1)).map (fun j : ℕ => (j : ℚ)) = [0, 1] from by
    norm_num [show List.range 2 = [0, 1] from by decide]]
  simp only [Test2.levOuter, Test2.levInner]
  norm_num
  exact hb1

/-- Unfolding a successful, nonempty test2.py suggestion call. -/
theorem t2_suggest_word_ok {st : BrailleAutocorrect} {input_seq language : String}
    {k : ℕ} {input_dots : List (List ℕ)}
    (hparse : input_to_braille input_seq = .ok input_dots) (hne : input_dots ≠ []) :
    Test2.suggest_word st input_seq language k =
      .ok (((List.insertionSort TripleLE
          (((dictGetOrCreate st.dictionaries language).1.terminalsFrom []).map (fun ew =>
            (Test2.levenshtein_distance input_dots ew.1
               + |(ew.1.length : ℚ) - (input_dots.length : ℚ)| * 0.5
               - learnBonus (countOf st.corrections ew.2),
             Test2.levenshtein_distance input_dots ew.1, ew.2)))).take k).map
            (fun s => s.2.2),
        ⟨(dictGetOrCreate st.dictionaries language).2,
         ((dictGetOrCreate st.dictionaries language).1.terminalsFrom []).foldl
           (fun c ew => touch c ew.2) st.corrections⟩) := by
  unfold Test2.suggest_word
  rw [hparse]
  simp only [if_neg hne]

/-- The read count of an empty correction store. -/
theorem countOf_nil (s : String) : countOf [] s = 0 := rfl

/-- C9: the two scorer variants present in the source produce different
rankings on the same input and dictionary: with the words a and u loaded
for english, the query pattern {6} ranks u first under the braille.py
union-based (Jaccard) scorer but a first under the test2.py
symmetric-difference-over-6 scorer, so the two embedded suggest functions
are not equal. -/
theorem claim_C9_scorers_disagree :
    suggest_words stAU "P" "english" 1 = .ok ["u"]
    ∧ Test2.suggest_words stAU "P" "english" 1 = .ok ["a"]
    ∧ suggest_words stAU "P" "english" 1 ≠ Test2.suggest_words stAU "P" "english" 1 := by
  have hnda : normalized_dot_distance [6] [1] = 1 := by
    simp only [normalized_dot_distance]
    rw [show (([6] : List ℕ).toFinset ∩ ([1] : List ℕ).toFinset).card = 0 from by decide,
      show (([6] : List ℕ).toFinset ∪ ([1] : List ℕ).toFinset).card = 2 from by decide]
    norm_num
  have hndu : normalized_dot_distance [6] [1, 3, 6] = 2 / 3 := by
    simp only [normalized_dot_distance]
    rw [show (([6] : List ℕ).toFinset ∩ ([1, 3, 6] : List ℕ).toFinset).card = 1 from by
        decide,
      show (([6] : List ℕ).toFinset ∪ ([1, 3, 6] : List ℕ).toFinset).card = 3 from by
        decide]
    norm_num
  have hndt : normalized_dot_distance [6] [2, 3, 4, 6] = 3 / 4 := by
    simp only [normalized_dot_distance]
    rw [show (([6] : List ℕ).toFinset ∩ ([2, 3, 4, 6] : List ℕ).toFinset).card = 1 from by
        decide,
      show (([6] : List ℕ).toFinset ∪ ([2, 3, 4, 6] : List ℕ).toFinset).card = 4 from by
        decide]
    norm_num
  have hda : levenshtein_distance [[6]] [[1]] = 1 := by
    rw [levenshtein_distance_single, hnda]
  have hdu : levenshtein_distance [[6]] [[1, 3, 6]] = 2 / 3 := by
    rw [levenshtein_distance_single, hndu]
  have hdt : levenshtein_distance [[6]] [[2, 3, 4, 6]] = 3 / 4 := by
    rw [levenshtein_distance_single, hndt]
  have t2da : Test2.levenshtein_distance [[6]] [[1]] = 1 / 3 := by
    rw [t2_levenshtein_distance_single [6] [1] (by decide),
      show hamming_distance [6] [1] = 2 from by decide]
    norm_num
  have t2du : Test2.levenshtein_distance [[6]] [[1, 3, 6]] = 1 / 3 := by
    rw [t2_levenshtein_distance_single [6] [1, 3, 6] (by decide),
      show hamming_distance [6] [1, 3, 6] = 2 from by decide]
    norm_num
  have t2dt : Test2.levenshtein_distance [[6]] [[2, 3, 4, 6]] = 1 / 2 := by
    rw [t2_levenshtein_distance_single [6] [2, 3, 4, 6] (by decide),
      show hamming_distance [6] [2, 3, 4, 6] = 3 from by decide]
    norm_num
  have hterm : (dictGetOrCreate stAU.dictionaries "english").1.terminalsFrom []
      = [([[1]], "a"), ([[1, 3, 6]], "u"), ([[2, 3, 4, 6]], "the")] := by
    rw [show (dictGetOrCreate stAU.dictionaries "english").1
        = TrieNode.mk [([1], .mk [] true (some "a")), ([1, 3, 6], .mk [] true (some "u")),
            ([2, 3, 4, 6], .mk [] true (some "the"))] false none from rfl]
    simp [terminalsFrom_mk, terminalsChildren_cons, terminalsChildren_nil]
  have hcz : ∀ x, countOf stAU.corrections x = 0 := fun x => rfl
  have htr : suggestTriples stAU [[6]] "english"
      = [((1 : ℚ), (1 : ℚ), "a"), (2 / 3, 2 / 3, "u"), (3 / 4, 3 / 4, "the")] := by
    unfold suggestTriples
    rw [hterm]
    simp [hda, hdu, hdt, hcz, learnBonus_zero]
  have c1 : TripleLE ((2 : ℚ) / 3, (2 : ℚ) / 3, "u") ((3 : ℚ) / 4, (3 : ℚ) / 4, "the") :=
    Or.inl (by norm_num)
  have c2 : ¬ TripleLE ((1 : ℚ), (1 : ℚ), "a") ((2 : ℚ) / 3, (2 : ℚ) / 3, "u") := by
    rintro (h | ⟨h, _⟩) <;> norm_num at h
  have c3 : ¬ TripleLE ((1 : ℚ), (1 : ℚ), "a") ((3 : ℚ) / 4, (3 : ℚ) / 4, "the") := by
    rintro (h | ⟨h, _⟩) <;> norm_num at h
  have hsort : List.insertionSort TripleLE
      [((1 : ℚ), (1 : ℚ), "a"), (2 / 3, 2 / 3, "u"), (3 / 4, 3 / 4, "the")]
      = [((2 : ℚ) / 3, (2 : ℚ) / 3, "u"), (3 / 4, 3 / 4, "the"), (1, 1, "a")] := by
    simp [List.insertionSort, List.orderedInsert, c1, c2, c3]
  have h1 : suggest_words stAU "P" "english" 1 = .ok ["u"] := by
    unfold suggest_words
    rw [@suggest_word_ok stAU "P" "english" 1 [[6]] rfl (by decide)]
    rw [htr, hsort]
    simp [Except.map]
  have htr2 : ((dictGetOrCreate stAU.dictionaries "english").1.terminalsFrom []).map
        (fun ew =>
          (Test2.levenshtein_distance [[6]] ew.1
             + |(ew.1.length : ℚ) - (([[6]] : List (List ℕ)).length : ℚ)| * 0.5
             - learnBonus (countOf stAU.corrections ew.2),
           Test2.levenshtein_distance [[6]] ew.1, ew.2))
      = [((1 : ℚ) / 3, (1 : ℚ) / 3, "a"), (1 / 3, 1 / 3, "u"), (1 / 2, 1 / 2, "the")] := by
    rw [hterm]
    simp [t2da, t2du, t2dt, hcz, learnBonus_zero]
  have d1 : TripleLE ((1 : ℚ) / 3, (1 : ℚ) / 3, "u") ((1 : ℚ) / 2, (1 : ℚ) / 2, "the") :=
    Or.inl (by norm_num)
  have d2 : TripleLE ((1 : ℚ) / 3, (1 : ℚ) / 3, "a") ((1 : ℚ) / 3, (1 : ℚ) / 3, "u") :=
    Or.inr ⟨rfl, Or.inr ⟨rfl, show charListLeb "a".data "u".data = true from by decide⟩⟩
  have e1 : List.orderedInsert TripleLE ((1 : ℚ) / 3, (1 : ℚ) / 3, "u")
      [((1 : ℚ) / 2, (1 : ℚ) / 2, "the")]
      = [((1 : ℚ) / 3, (1 : ℚ) / 3, "u"), ((1 : ℚ) / 2, (1 : ℚ) / 2, "the")] := by
    rw [List.orderedInsert, if_pos d1]
  have e2 : List.orderedInsert TripleLE ((1 : ℚ) / 3, (1 : ℚ) / 3, "a")
      [((1 : ℚ) / 3, (1 : ℚ) / 3, "u"), ((1 : ℚ) / 2, (1 : ℚ) / 2, "the")]
      = [((1 : ℚ) / 3, (1 : ℚ) / 3, "a"), ((1 : ℚ) / 3, (1 : ℚ) / 3, "u"),
          ((1 : ℚ) / 2, (1 : ℚ) / 2, "the")] := by
    rw [List.orderedInsert, if_pos d2]
  have hsort2 : List.insertionSort TripleLE
      [((1 : ℚ) / 3, (1 : ℚ) / 3, "a"), (1 / 3, 1 / 3, "u"), (1 / 2, 1 / 2, "the")]
      = [((1 : ℚ) / 3, (1 : ℚ) / 3, "a"), (1 / 3, 1 / 3, "u"), (1 / 2, 1 / 2, "the")] := by
    show List.orderedInsert TripleLE ((1 : ℚ) / 3, (1 : ℚ) / 3, "a")
      (List.orderedInsert TripleLE ((1 : ℚ) / 3, (1 : ℚ) / 3, "u")
        (List.orderedInsert TripleLE ((1 : ℚ) / 2, (1 : ℚ) / 2, "the") [])) = _
    rw [show List.orderedInsert TripleLE ((1 : ℚ) / 2, (1 : ℚ) / 2, "the")
        ([] : List (ℚ × ℚ × String)) = [((1 : ℚ) / 2, (1 : ℚ) / 2, "the")] from rfl,
      e1, e2]
  have h2 : Test2.suggest_words stAU "P" "english" 1 = .ok ["a"] := by
    unfold Test2.suggest_words
    rw [@t2_suggest_word_ok stAU "P" "english" 1 [[6]] rfl (by decide)]
    rw [htr2, hsort2]
    simp [Except.map]
  refine ⟨h1, h2, ?_⟩
  rw [h1, h2]
  simp
